import Mathlib

/-!
Verification of the VMControl replay-buffer and evaluation scripts.

This file shallowly embeds the three replay-buffer classes of
`vmcontrol/rlkit/rlkit/data_management/obs_dict_replay_buffer.py`
(`ObsDictRelabelingBuffer`, `imgObsDictRelabelingBuffer`,
`newstateObsDictRelabelingBuffer`) and the evaluation loop of
`vmcontrol/ISE_7202/eval.py`, and proves the claims about them.

Modelling conventions:
* numpy arrays of shape `(max_size, dim)` become functions `Nat → Option X`;
  a slot is `none` until it is first written by an insertion (the source
  initialises the arrays with zeros, which are never read back before being
  written, so the `Option` layer only records "has been written").
* The observation dictionaries are modelled by the structure `ObsDict` with
  the three saved keys of the default configuration (`observation`,
  `desired_goal`, `achieved_goal`); the source writes every saved key with
  the same slice at the same slots, so writing the whole record at once is
  extensionally the per-key loop of the source.
* Python / numpy floats are modelled by `ℚ`; `int()` truncation toward zero
  is `pyInt`.
* `np.random.randint(0, n)` and `np.random.choice` are modelled by oracles:
  an arbitrary natural `r` is reduced by `r % n`, which ranges over exactly
  the values the source can draw.
-/

/-- `np.arange a b` for naturals. -/
def arange (a b : Nat) : List Nat := List.range' a (b - a)

/-- Point update of a functional array. -/
def setIdx {X : Type} (f : Nat → Option X) (i : Nat) (v : X) : Nat → Option X :=
  fun j => if j = i then some v else f j

/-- Slice assignment `f[a : a + l.length] = l` of a functional array. -/
def setRange {X : Type} (f : Nat → Option X) (a : Nat) (l : List X) : Nat → Option X :=
  match l with
  | [] => f
  | v :: t => setRange (setIdx f a v) (a + 1) t

theorem setRange_get_out {X : Type} (l : List X) (f : Nat → Option X) (a j : Nat)
    (h : j < a ∨ a + l.length ≤ j) : setRange f a l j = f j := by
  induction l generalizing f a with
  | nil => rfl
  | cons v t ih =>
      simp only [List.length_cons] at h
      simp only [setRange]
      rw [ih _ _ (by omega)]
      simp only [setIdx]
      rw [if_neg (by omega)]

theorem setRange_get_in {X : Type} (l : List X) (f : Nat → Option X) (a j : Nat)
    (h1 : a ≤ j) (h2 : j < a + l.length) : setRange f a l j = l.get? (j - a) := by
  induction l generalizing f a with
  | nil => simp at h2; omega
  | cons v t ih =>
      simp only [setRange]
      rcases Nat.eq_or_lt_of_le h1 with heq | hlt
      · subst heq
        rw [setRange_get_out]
        · simp [setIdx]
        · omega
      · rw [ih (setIdx f a v) (a + 1) (by omega) (by simp only [List.length_cons] at h2; omega)]
        have : j - a = (j - (a + 1)) + 1 := by omega
        simp [this]

/-- Python `int()` on a rational: truncation toward zero. -/
def pyInt (q : ℚ) : ℤ := if 0 ≤ q then ⌊q⌋ else -⌊-q⌋

/-- An observation dictionary restricted to the saved keys of the default
configuration (`observation_key`, `desired_goal_key`, `achieved_goal_key`). -/
structure ObsDict (V : Type) where
  observation : V
  desired_goal : V
  achieved_goal : V
  deriving DecidableEq

instance {V : Type} [Inhabited V] : Inhabited (ObsDict V) :=
  ⟨⟨default, default, default⟩⟩

/-- One step of a path handed to `add_path`: parallel entries of the
`observations`, `actions`, `rewards`, `next_observations`, `terminals`
arrays of the path dictionary. -/
structure PathStep (A V : Type) where
  obs : ObsDict V
  action : A
  reward : ℚ
  next_obs : ObsDict V
  terminal : Bool
  deriving DecidableEq

instance {A V : Type} [Inhabited A] [Inhabited V] : Inhabited (PathStep A V) :=
  ⟨⟨default, default, 0, default, false⟩⟩

/-- State of `ObsDictRelabelingBuffer` (the base class): the flat
fixed-capacity arrays, the write pointer `_top`, the fill level `_size`,
the stored configuration fractions, and the per-slot future-observation
index lists.  The source initialises `_idx_to_future_obs_idx` with `None`
entries, modelled here by the empty list (an entry is only ever read after
its slot has been written, at which point it is a real list). -/
structure ObsDictRelabelingBuffer (A V : Type) where
  max_size : Nat
  fraction_goals_rollout_goals : ℚ
  fraction_goals_env_goals : ℚ
  _actions : Nat → Option A
  _terminals : Nat → Option Bool
  _obs : Nat → Option (ObsDict V)
  _next_obs : Nat → Option (ObsDict V)
  _top : Nat
  _size : Nat
  _idx_to_future_obs_idx : Nat → List Nat

/-- Freshly constructed buffer (`__init__`, after the assertions pass). -/
def initBuffer (A V : Type) (max_size : Nat) (frg feg : ℚ) :
    ObsDictRelabelingBuffer A V where
  max_size := max_size
  fraction_goals_rollout_goals := frg
  fraction_goals_env_goals := feg
  _actions := fun _ => none
  _terminals := fun _ => none
  _obs := fun _ => none
  _next_obs := fun _ => none
  _top := 0
  _size := 0
  _idx_to_future_obs_idx := fun _ => []

/-- The slice writes of `add_path` applied to one storage array: the wrap
branch (`self._top + path_len >= self.max_size`) writes the pre-wrap part of
the path at `_top` and the post-wrap part at 0; the other branch writes the
whole path at `_top`.  All five per-key arrays are written with exactly
these slices in the source, so this helper is shared between them. -/
def writePathArray {X : Type} (top M : Nat) (xs : List X) (f : Nat → Option X) :
    Nat → Option X :=
  if M ≤ top + xs.length then
    setRange (setRange f top (xs.take (M - top))) 0 (xs.drop (M - top))
  else
    setRange f top xs

/-- The future-observation-index updates of `add_path`.  In the wrap branch
the source first sets the lists of the pre-wrap slots `[_top, max_size)` and
then those of the post-wrap slots `[0, num_post_wrap_steps)`; accordingly the
post-wrap test is made first below, so that an (unreachable for
`len ≤ max_size`) overlap resolves to the later loop, as in the source. -/
def writeFut (fut : Nat → List Nat) (top M len : Nat) : Nat → List Nat :=
  if M ≤ top + len then
    let num_post_wrap_steps := len - (M - top)
    fun i =>
      if i < num_post_wrap_steps then arange i num_post_wrap_steps
      else if top ≤ i ∧ i < M then arange i M ++ arange 0 num_post_wrap_steps
      else fut i
  else
    fun i => if top ≤ i ∧ i < top + len then arange i (top + len) else fut i

/-- `ObsDictRelabelingBuffer.add_path`.  The rewards of the path are read to
obtain `path_len` but are not stored anywhere (this class has no rewards
array); image preprocessing and the `Discrete` one-hot conversion are
identities in the abstract model. -/
def ObsDictRelabelingBuffer.add_path {A V : Type}
    (s : ObsDictRelabelingBuffer A V) (path : List (PathStep A V)) :
    ObsDictRelabelingBuffer A V :=
  let path_len := path.length
  { s with
    _actions := writePathArray s._top s.max_size (path.map (·.action)) s._actions
    _terminals := writePathArray s._top s.max_size (path.map (·.terminal)) s._terminals
    _obs := writePathArray s._top s.max_size (path.map (·.obs)) s._obs
    _next_obs := writePathArray s._top s.max_size (path.map (·.next_obs)) s._next_obs
    _idx_to_future_obs_idx := writeFut s._idx_to_future_obs_idx s._top s.max_size path_len
    _top := (s._top + path_len) % s.max_size
    _size := min (s._size + path_len) s.max_size }

/-- `_sample_indices` / the `indices` draw of `random_batch`:
`np.random.randint(0, _size)` for randomness oracle `r`. -/
def ObsDictRelabelingBuffer.sampleIndex {A V : Type}
    (s : ObsDictRelabelingBuffer A V) (r : Nat) : Nat :=
  r % s._size

theorem arange_eq_map (a b : Nat) :
    arange a b = (List.range (b - a)).map (fun d => a + d) := by
  rw [arange, List.range'_eq_map_range]

theorem arange_zero_eq_range (n : Nat) : arange 0 n = List.range n := by
  rw [arange_eq_map]
  simp

theorem setRange_isSome {X : Type} (l : List X) (f : Nat → Option X) (a j : Nat)
    (h : (f j).isSome) : (setRange f a l j).isSome := by
  by_cases hin : a ≤ j ∧ j < a + l.length
  · rw [setRange_get_in l f a j hin.1 hin.2]
    have hlt : j - a < l.length := by omega
    rw [List.get?_eq_get hlt]
    rfl
  · rw [setRange_get_out l f a j (by omega)]
    exact h

theorem writePathArray_isSome {X : Type} (top M : Nat) (xs : List X)
    (f : Nat → Option X) (j : Nat) (h : (f j).isSome) :
    (writePathArray top M xs f j).isSome := by
  unfold writePathArray
  split
  · exact setRange_isSome _ _ _ _ (setRange_isSome _ _ _ _ h)
  · exact setRange_isSome _ _ _ _ h

theorem writePathArray_in {X : Type} (top M : Nat) (xs : List X) (f : Nat → Option X)
    (htop : top < M) (hlen : xs.length ≤ M) (d : Nat) (hd : d < xs.length) :
    writePathArray top M xs f ((top + d) % M) = xs.get? d := by
  unfold writePathArray
  split
  case isTrue hw =>
    by_cases hpre : d < M - top
    · have hmod : (top + d) % M = top + d := Nat.mod_eq_of_lt (by omega)
      rw [hmod]
      rw [setRange_get_out]
      · rw [setRange_get_in]
        · have hidx : top + d - top = d := by omega
          rw [hidx, List.get?_take hpre]
        · omega
        · rw [List.length_take]
          omega
      · right
        rw [List.length_drop]
        omega
    · have hmod : (top + d) % M = top + d - M := by
        have h1 : (top + d) % M = ((top + d - M) + M) % M := by
          congr 1
          omega
        rw [h1, Nat.add_mod_right, Nat.mod_eq_of_lt (by omega)]
      rw [hmod]
      rw [setRange_get_in]
      · rw [List.get?_drop]
        congr 1
        omega
      · omega
      · rw [List.length_drop]
        omega
  case isFalse hw =>
    have hmod : (top + d) % M = top + d := Nat.mod_eq_of_lt (by omega)
    rw [hmod, setRange_get_in]
    · congr 1
      omega
    · omega
    · omega

theorem writeFut_in (fut : Nat → List Nat) (top M len x : Nat)
    (htop : top < M) (hlen : len ≤ M) (hx : x < len) :
    writeFut fut top M len ((top + x) % M) =
      (List.range (len - x)).map (fun d => (top + x + d) % M) := by
  unfold writeFut
  split
  case isTrue hw =>
    by_cases hpre : x < M - top
    · have hmod : (top + x) % M = top + x := Nat.mod_eq_of_lt (by omega)
      rw [hmod]
      simp only
      rw [if_neg (by omega), if_pos (by omega)]
      have hsplit : len - x = (M - (top + x)) + (len - (M - top)) := by omega
      rw [hsplit, List.range_add, List.map_append, List.map_map]
      rw [arange_eq_map, arange_zero_eq_range]
      congr 1
      · apply List.map_eq_map_iff.mpr
        intro a ha
        rw [List.mem_range] at ha
        rw [Nat.mod_eq_of_lt (by omega)]
      · symm
        have hpt : ∀ a ∈ List.range (len - (M - top)),
            ((fun d => (top + x + d) % M) ∘ (fun y => M - (top + x) + y)) a = id a := by
          intro a ha
          rw [List.mem_range] at ha
          simp only [Function.comp, id]
          have : top + x + (M - (top + x) + a) = M + a := by omega
          rw [this, Nat.add_mod_left, Nat.mod_eq_of_lt (by omega)]
        rw [List.map_eq_map_iff.mpr hpt, List.map_id]
    · have hmod : (top + x) % M = top + x - M := by
        have h1 : (top + x) % M = ((top + x - M) + M) % M := by
          congr 1
          omega
        rw [h1, Nat.add_mod_right, Nat.mod_eq_of_lt (by omega)]
      rw [hmod]
      simp only
      rw [if_pos (by omega)]
      have harange : arange (top + x - M) (len - (M - top)) =
          (List.range (len - x)).map (fun d => (top + x - M) + d) := by
        rw [arange_eq_map]
        have : len - (M - top) - (top + x - M) = len - x := by omega
        rw [this]
      rw [harange]
      apply List.map_eq_map_iff.mpr
      intro a ha
      rw [List.mem_range] at ha
      have : top + x + a = M + (top + x - M + a) := by omega
      rw [this, Nat.add_mod_left, Nat.mod_eq_of_lt (by omega)]
  case isFalse hw =>
    have hmod : (top + x) % M = top + x := Nat.mod_eq_of_lt (by omega)
    rw [hmod]
    simp only
    rw [if_pos (by omega)]
    have h1 : top + len = (top + x) + (len - x) := by omega
    rw [h1, arange_eq_map]
    have h2 : top + x + (len - x) - (top + x) = len - x := by omega
    rw [h2]
    apply List.map_eq_map_iff.mpr
    intro a ha
    rw [List.mem_range] at ha
    rw [Nat.mod_eq_of_lt (by omega)]

theorem writeFut_out (fut : Nat → List Nat) (top M len j : Nat)
    (htop : top < M) (hlen : len ≤ M)
    (h : ∀ x, x < len → (top + x) % M ≠ j) :
    writeFut fut top M len j = fut j := by
  unfold writeFut
  split
  case isTrue hw =>
    simp only
    rw [if_neg, if_neg]
    · intro hc
      obtain ⟨h1, h2⟩ := hc
      exact h (j - top) (by omega) (by rw [Nat.mod_eq_of_lt (by omega)]; omega)
    · intro hc
      exact h ((M - top) + j) (by omega)
        (by
          have : top + (M - top + j) = M + j := by omega
          rw [this, Nat.add_mod_left, Nat.mod_eq_of_lt (by omega)])
  case isFalse hw =>
    simp only
    rw [if_neg]
    intro hc
    obtain ⟨h1, h2⟩ := hc
    exact h (j - top) (by omega) (by rw [Nat.mod_eq_of_lt (by omega)]; omega)

theorem get?_map_getD {X Y : Type} [Inhabited X] (l : List X) (f : X → Y) (d : Nat)
    (h : d < l.length) : (l.map f).get? d = some (f (l.getD d default)) := by
  rw [List.get?_map, List.get?_eq_get h, List.getD_eq_get l default h]
  rfl

/-- C1: `ObsDictRelabelingBuffer.add_path` implements a wrap-around write
pointer: from any state with `_top < max_size` and any path of length
`1 ≤ L ≤ max_size`, the new `_top` is `(_top + L) % max_size`, the new
`_size` is `min (_size + L) max_size`, and the path's transitions (action,
terminal, obs and next_obs for every saved key) are written in order to the
buffer slots `(_top + d) % max_size` for `d = 0, …, L-1`, which walk
`_top, _top+1, …` and wrap to slot 0 at the end of the array.  The wrap
branch of the source is by definition taken exactly when
`_top + L ≥ max_size`. -/
theorem add_path_wraparound_spec {A V : Type} [Inhabited A] [Inhabited V]
    (s : ObsDictRelabelingBuffer A V) (path : List (PathStep A V))
    (htop : s._top < s.max_size) (h1 : 1 ≤ path.length)
    (h2 : path.length ≤ s.max_size) :
    (s.add_path path)._top = (s._top + path.length) % s.max_size ∧
    (s.add_path path)._size = min (s._size + path.length) s.max_size ∧
    ∀ d, d < path.length →
      (s.add_path path)._actions ((s._top + d) % s.max_size) =
        some (path.getD d default).action ∧
      (s.add_path path)._terminals ((s._top + d) % s.max_size) =
        some (path.getD d default).terminal ∧
      (s.add_path path)._obs ((s._top + d) % s.max_size) =
        some (path.getD d default).obs ∧
      (s.add_path path)._next_obs ((s._top + d) % s.max_size) =
        some (path.getD d default).next_obs := by
  refine ⟨rfl, rfl, ?_⟩
  intro d hd
  refine ⟨?_, ?_, ?_, ?_⟩
  · show writePathArray s._top s.max_size (path.map (·.action)) s._actions
      ((s._top + d) % s.max_size) = _
    rw [writePathArray_in _ _ _ _ htop (by simpa using h2) d (by simpa using hd)]
    exact get?_map_getD path _ d hd
  · show writePathArray s._top s.max_size (path.map (·.terminal)) s._terminals
      ((s._top + d) % s.max_size) = _
    rw [writePathArray_in _ _ _ _ htop (by simpa using h2) d (by simpa using hd)]
    exact get?_map_getD path _ d hd
  · show writePathArray s._top s.max_size (path.map (·.obs)) s._obs
      ((s._top + d) % s.max_size) = _
    rw [writePathArray_in _ _ _ _ htop (by simpa using h2) d (by simpa using hd)]
    exact get?_map_getD path _ d hd
  · show writePathArray s._top s.max_size (path.map (·.next_obs)) s._next_obs
      ((s._top + d) % s.max_size) = _
    rw [writePathArray_in _ _ _ _ htop (by simpa using h2) d (by simpa using hd)]
    exact get?_map_getD path _ d hd

/-- Witness for `add_path_wraparound_spec`: a buffer of capacity 2 holding a
path of length 2 starting at `_top = 1`, exercising the wrap branch. -/
theorem add_path_wraparound_spec_witness :
    (((initBuffer ℚ ℚ 2 1 0).add_path
        [⟨⟨1, 2, 3⟩, 4, 5, ⟨6, 7, 8⟩, false⟩]).add_path
      [⟨⟨9, 10, 11⟩, 12, 13, ⟨14, 15, 16⟩, true⟩,
       ⟨⟨17, 18, 19⟩, 20, 21, ⟨22, 23, 24⟩, false⟩])._top = 1 := by
  have h := add_path_wraparound_spec
    ((initBuffer ℚ ℚ 2 1 0).add_path [⟨⟨1, 2, 3⟩, 4, 5, ⟨6, 7, 8⟩, false⟩])
    [⟨⟨9, 10, 11⟩, 12, 13, ⟨14, 15, 16⟩, true⟩,
     ⟨⟨17, 18, 19⟩, 20, 21, ⟨22, 23, 24⟩, false⟩]
    (by decide) (by decide) (by decide)
  exact h.1

/-- C2: after `add_path` with a path of length `L` starting at `t = _top`,
each newly written slot `i = (t + x) % max_size` has
`_idx_to_future_obs_idx[i]` equal to the sequence of buffer indices from `i`
to the last slot of the path in write order; in the wrap case a pre-wrap `i`
gets `arange i max_size ++ arange 0 num_post_wrap_steps` and a post-wrap `i`
gets `arange i num_post_wrap_steps`, in the non-wrap case `i` gets
`arange i (t + L)`; every such list is nonempty and contains `i`. -/
theorem add_path_future_idx_spec {A V : Type}
    (s : ObsDictRelabelingBuffer A V) (path : List (PathStep A V))
    (htop : s._top < s.max_size) (h2 : path.length ≤ s.max_size)
    (x : Nat) (hx : x < path.length) :
    (s.add_path path)._idx_to_future_obs_idx ((s._top + x) % s.max_size) =
      (List.range (path.length - x)).map (fun d => (s._top + x + d) % s.max_size) ∧
    (s.max_size ≤ s._top + path.length → s._top ≤ (s._top + x) % s.max_size →
      (s.add_path path)._idx_to_future_obs_idx ((s._top + x) % s.max_size) =
        arange ((s._top + x) % s.max_size) s.max_size ++
          arange 0 (path.length - (s.max_size - s._top))) ∧
    (s.max_size ≤ s._top + path.length →
      (s._top + x) % s.max_size < path.length - (s.max_size - s._top) →
      (s.add_path path)._idx_to_future_obs_idx ((s._top + x) % s.max_size) =
        arange ((s._top + x) % s.max_size) (path.length - (s.max_size - s._top))) ∧
    (s._top + path.length < s.max_size →
      (s.add_path path)._idx_to_future_obs_idx ((s._top + x) % s.max_size) =
        arange ((s._top + x) % s.max_size) (s._top + path.length)) ∧
    (s.add_path path)._idx_to_future_obs_idx ((s._top + x) % s.max_size) ≠ [] ∧
    (s._top + x) % s.max_size ∈
      (s.add_path path)._idx_to_future_obs_idx ((s._top + x) % s.max_size) := by
  have hM : 0 < s.max_size := by omega
  have hfut : (s.add_path path)._idx_to_future_obs_idx ((s._top + x) % s.max_size) =
      (List.range (path.length - x)).map (fun d => (s._top + x + d) % s.max_size) :=
    writeFut_in s._idx_to_future_obs_idx s._top s.max_size path.length x htop h2 hx
  refine ⟨hfut, ?_, ?_, ?_, ?_, ?_⟩
  · intro hw hti
    show writeFut s._idx_to_future_obs_idx s._top s.max_size path.length
      ((s._top + x) % s.max_size) = _
    unfold writeFut
    split
    case isTrue =>
      simp only
      rw [if_neg (by omega), if_pos ⟨hti, Nat.mod_lt _ hM⟩]
    case isFalse hns => exact absurd hw hns
  · intro hw hipost
    show writeFut s._idx_to_future_obs_idx s._top s.max_size path.length
      ((s._top + x) % s.max_size) = _
    unfold writeFut
    split
    case isTrue =>
      simp only
      rw [if_pos hipost]
    case isFalse hns => exact absurd hw hns
  · intro hnw
    have hxlt : s._top + x < s.max_size := by omega
    have hmod : (s._top + x) % s.max_size = s._top + x := Nat.mod_eq_of_lt hxlt
    show writeFut s._idx_to_future_obs_idx s._top s.max_size path.length
      ((s._top + x) % s.max_size) = _
    unfold writeFut
    split
    case isTrue hns => omega
    case isFalse =>
      simp only
      rw [if_pos (by rw [hmod]; omega)]
  · rw [hfut]
    simp only [ne_eq, List.map_eq_nil, List.range_eq_nil]
    omega
  · rw [hfut]
    apply List.mem_map.mpr
    refine ⟨0, ?_, by rw [Nat.add_zero]⟩
    rw [List.mem_range]
    omega

/-- Witness for `add_path_future_idx_spec`: capacity 3, a first path of
length 2, then a wrapping path of length 2; the slot written at `x = 0` of
the second path (slot 2) gets the pre-wrap list `[2, 0]`. -/
theorem add_path_future_idx_spec_witness :
    (((initBuffer ℚ ℚ 3 1 0).add_path
        [⟨⟨1, 1, 1⟩, 1, 1, ⟨1, 1, 1⟩, false⟩, ⟨⟨2, 2, 2⟩, 2, 2, ⟨2, 2, 2⟩, false⟩]).add_path
      [⟨⟨3, 3, 3⟩, 3, 3, ⟨3, 3, 3⟩, false⟩,
       ⟨⟨4, 4, 4⟩, 4, 4, ⟨4, 4, 4⟩, true⟩])._idx_to_future_obs_idx 2 = [2, 0] := by
  have h := add_path_future_idx_spec
    ((initBuffer ℚ ℚ 3 1 0).add_path
      [⟨⟨1, 1, 1⟩, 1, 1, ⟨1, 1, 1⟩, false⟩, ⟨⟨2, 2, 2⟩, 2, 2, ⟨2, 2, 2⟩, false⟩])
    [⟨⟨3, 3, 3⟩, 3, 3, ⟨3, 3, 3⟩, false⟩, ⟨⟨4, 4, 4⟩, 4, 4, ⟨4, 4, 4⟩, true⟩]
    (by decide) (by decide) 0 (by decide)
  have h2 := h.2.1 (by decide) (by decide)
  simpa [arange] using h2

/-- The assertion block on the configuration fractions, token-identical in
the constructors of all three buffer classes (base class lines 44-47, img
class lines 363-366, newstate class lines 597-600): construction passes
(returns `true`, i.e. no `AssertionError`) iff all four asserts hold. -/
def fractionAssertsPass (frg feg : ℚ) : Bool :=
  decide (0 ≤ frg) && decide (0 ≤ feg) && decide (0 ≤ frg + feg) &&
    decide (frg + feg ≤ 1)

/-- C7: for each of the three replay-buffer classes, construction raises an
`AssertionError` exactly when the fractions violate one of
`0 ≤ fraction_goals_rollout_goals`, `0 ≤ fraction_goals_env_goals`,
`fraction_goals_rollout_goals + fraction_goals_env_goals ≤ 1` (the fourth
assert `0 ≤ frg + feg` is implied by the first two and never fails alone),
and the default configuration `(1, 0)` passes. -/
theorem fraction_asserts_spec :
    (∀ frg feg : ℚ,
      fractionAssertsPass frg feg = true ↔ (0 ≤ frg ∧ 0 ≤ feg ∧ frg + feg ≤ 1)) ∧
    fractionAssertsPass 1 0 = true := by
  constructor
  · intro frg feg
    simp only [fractionAssertsPass, Bool.and_eq_true, decide_eq_true_eq]
    constructor
    · rintro ⟨⟨⟨a, b⟩, _⟩, c⟩
      exact ⟨a, b, c⟩
    · rintro ⟨a, b, c⟩
      exact ⟨⟨⟨a, b⟩, by linarith⟩, c⟩
  · simp [fractionAssertsPass]

/-- Errors raised while storing a row into a numpy buffer array: the
broadcast `ValueError` carries the offending and the expected dimension. -/
inductive PyErr where
  | valueError (got expected : Nat)
  deriving DecidableEq

/-- `self._obs[i] = v` for a `(max_size, dim)` float array: raises unless
the value broadcasts, i.e. has exactly the row dimension. -/
def storeRow (dim : Nat) (f : Nat → Option (List ℚ)) (i : Nat) (v : List ℚ) :
    Except PyErr (Nat → Option (List ℚ)) :=
  if v.length = dim then .ok (setIdx f i v) else .error (.valueError v.length dim)

/-- State of `imgObsDictRelabelingBuffer`: flat arrays for actions, rewards,
terminals and the (single-key) observation and next-observation vectors of
row dimension `obs_dim`. -/
structure ImgBuf where
  max_size : Nat
  obs_dim : Nat
  _actions : Nat → Option (List ℚ)
  _rewards : Nat → Option ℚ
  _terminals : Nat → Option Bool
  _obs : Nat → Option (List ℚ)
  _next_obs : Nat → Option (List ℚ)
  _top : Nat
  _size : Nat

/-- Freshly constructed `imgObsDictRelabelingBuffer`. -/
def imgInit (max_size obs_dim : Nat) : ImgBuf where
  max_size := max_size
  obs_dim := obs_dim
  _actions := fun _ => none
  _rewards := fun _ => none
  _terminals := fun _ => none
  _obs := fun _ => none
  _next_obs := fun _ => none
  _top := 0
  _size := 0

/-- `imgObsDictRelabelingBuffer._advance`. -/
def ImgBuf._advance (s : ImgBuf) : ImgBuf :=
  { s with
    _top := (s._top + 1) % s.max_size
    _size := if s._size < s.max_size then s._size + 1 else s._size }

/-- `imgObsDictRelabelingBuffer.add_sample`: stores action, reward and
terminal at `_top`, then inside the try block stores `obs` and `next_obs`;
an exception raised by either store is caught, logged and re-raised (second
component `some e`), leaving `_advance` uncalled; on success `_advance` runs
and the second component is `none`.  The action/reward/terminal stores
before the try block are modelled as total. -/
def ImgBuf.add_sample (s : ImgBuf) (obs action : List ℚ) (reward : ℚ)
    (terminal : Bool) (next_obs : List ℚ) : ImgBuf × Option PyErr :=
  let s1 := { s with
    _actions := setIdx s._actions s._top action
    _rewards := setIdx s._rewards s._top reward
    _terminals := setIdx s._terminals s._top terminal }
  match storeRow s.obs_dim s1._obs s1._top obs with
  | .error e => (s1, some e)
  | .ok o =>
      let s2 := { s1 with _obs := o }
      match storeRow s.obs_dim s2._next_obs s2._top next_obs with
      | .error e => (s2, some e)
      | .ok no => (({ s2 with _next_obs := no })._advance, none)

/-- `imgObsDictRelabelingBuffer._sample_indices` / the `indices` draw of its
`random_batch`, for randomness oracle `r`. -/
def ImgBuf.sampleIndex (s : ImgBuf) (r : Nat) : Nat :=
  r % s._size

/-- The `rewards` entry of `imgObsDictRelabelingBuffer.random_batch`:
`self._rewards[indices]` at batch position `j`, for index oracle `rs`. -/
def ImgBuf.random_batch_rewards (s : ImgBuf) (rs : Nat → Nat) (j : Nat) :
    Option ℚ :=
  s._rewards (s.sampleIndex (rs j))

/-- C8: `imgObsDictRelabelingBuffer.add_sample` catches, logs and re-raises
any exception raised while storing the observation or next observation: the
very exception raised is propagated (never swallowed), and on such a failure
`_top` and `_size` are unchanged because `_advance` is skipped; `add_sample`
returns normally exactly when both stores succeed, and then `_top` has
advanced by 1 modulo `max_size` (with `_size` grown by 1 up to the cap). -/
theorem add_sample_exception_spec (s : ImgBuf) (obs action : List ℚ)
    (reward : ℚ) (terminal : Bool) (next_obs : List ℚ) :
    ((s.add_sample obs action reward terminal next_obs).2 = none ↔
      obs.length = s.obs_dim ∧ next_obs.length = s.obs_dim) ∧
    (∀ e, (s.add_sample obs action reward terminal next_obs).2 = some e →
      (s.add_sample obs action reward terminal next_obs).1._top = s._top ∧
      (s.add_sample obs action reward terminal next_obs).1._size = s._size ∧
      ((e = .valueError obs.length s.obs_dim ∧ obs.length ≠ s.obs_dim) ∨
       (e = .valueError next_obs.length s.obs_dim ∧ obs.length = s.obs_dim ∧
        next_obs.length ≠ s.obs_dim))) ∧
    ((s.add_sample obs action reward terminal next_obs).2 = none →
      (s.add_sample obs action reward terminal next_obs).1._top =
        (s._top + 1) % s.max_size ∧
      (s.add_sample obs action reward terminal next_obs).1._size =
        (if s._size < s.max_size then s._size + 1 else s._size)) := by
  by_cases h1 : obs.length = s.obs_dim
  · by_cases h2 : next_obs.length = s.obs_dim
    · refine ⟨by simp [ImgBuf.add_sample, storeRow, h1, h2], ?_, ?_⟩
      · intro e he
        simp [ImgBuf.add_sample, storeRow, h1, h2] at he
      · intro _
        refine ⟨?_, ?_⟩
        · simp [ImgBuf.add_sample, storeRow, h1, h2, ImgBuf._advance]
        · simp [ImgBuf.add_sample, storeRow, h1, h2, ImgBuf._advance]
    · refine ⟨by simp [ImgBuf.add_sample, storeRow, h1, h2], ?_, ?_⟩
      · intro e he
        simp only [ImgBuf.add_sample, storeRow, if_pos h1, if_neg h2,
          Option.some_inj] at he
        refine ⟨?_, ?_, Or.inr ⟨he.symm, h1, h2⟩⟩
        · simp [ImgBuf.add_sample, storeRow, h1, h2]
        · simp [ImgBuf.add_sample, storeRow, h1, h2]
      · intro hc
        simp [ImgBuf.add_sample, storeRow, h1, h2] at hc
  · refine ⟨by simp [ImgBuf.add_sample, storeRow, h1], ?_, ?_⟩
    · intro e he
      simp only [ImgBuf.add_sample, storeRow, if_neg h1, Option.some_inj] at he
      refine ⟨?_, ?_, Or.inl ⟨he.symm, h1⟩⟩
      · simp [ImgBuf.add_sample, storeRow, h1]
      · simp [ImgBuf.add_sample, storeRow, h1]
    · intro hc
      simp [ImgBuf.add_sample, storeRow, h1] at hc

/-- Witness for `add_sample_exception_spec` (its inner implications): a
failing store on a capacity-2 buffer with row dimension 1 propagates the
`ValueError` and leaves `_top` and `_size` at 0. -/
theorem add_sample_exception_spec_witness :
    ((imgInit 2 1).add_sample [3, 4] [0] 5 false [6]).2 =
      some (.valueError 2 1) ∧
    ((imgInit 2 1).add_sample [3, 4] [0] 5 false [6]).1._top = 0 ∧
    ((imgInit 2 1).add_sample [3, 4] [0] 5 false [6]).1._size = 0 := by
  have h := add_sample_exception_spec (imgInit 2 1) [3, 4] [0] 5 false [6]
  have he : ((imgInit 2 1).add_sample [3, 4] [0] 5 false [6]).2 =
      some (.valueError 2 1) := by decide
  have h2 := h.2.1 (.valueError 2 1) he
  exact ⟨he, h2.1, h2.2.1⟩

/-- State of `newstateObsDictRelabelingBuffer`: like the img class, with the
relabel count `k`; its `_idx_to_future_obs_idx` is initialised but never
used or updated. -/
structure NewstateBuf where
  max_size : Nat
  k : Nat
  _actions : Nat → Option (List ℚ)
  _rewards : Nat → Option ℚ
  _terminals : Nat → Option Bool
  _obs : Nat → Option (List ℚ)
  _next_obs : Nat → Option (List ℚ)
  _top : Nat
  _size : Nat

/-- Freshly constructed `newstateObsDictRelabelingBuffer`. -/
def newstateInit (max_size k : Nat) : NewstateBuf where
  max_size := max_size
  k := k
  _actions := fun _ => none
  _rewards := fun _ => none
  _terminals := fun _ => none
  _obs := fun _ => none
  _next_obs := fun _ => none
  _top := 0
  _size := 0

/-- `newstateObsDictRelabelingBuffer._advance`. -/
def NewstateBuf._advance (s : NewstateBuf) : NewstateBuf :=
  { s with
    _top := (s._top + 1) % s.max_size
    _size := if s._size < s.max_size then s._size + 1 else s._size }

/-- `newstateObsDictRelabelingBuffer.add_sample`: stores every field at
`_top`, then `_advance`s. -/
def NewstateBuf.add_sample (s : NewstateBuf) (obs action : List ℚ) (reward : ℚ)
    (terminal : Bool) (next_obs : List ℚ) : NewstateBuf :=
  ({ s with
    _actions := setIdx s._actions s._top action
    _rewards := setIdx s._rewards s._top reward
    _terminals := setIdx s._terminals s._top terminal
    _obs := setIdx s._obs s._top obs
    _next_obs := setIdx s._next_obs s._top next_obs })._advance

/-- One argument tuple of an `add_sample` call. -/
structure Sample where
  obs : List ℚ
  action : List ℚ
  reward : ℚ
  terminal : Bool
  next_obs : List ℚ
  deriving DecidableEq

/-- `add_sample` applied to a packed argument tuple. -/
def NewstateBuf.insert (s : NewstateBuf) (smp : Sample) : NewstateBuf :=
  s.add_sample smp.obs smp.action smp.reward smp.terminal smp.next_obs

/-- The original (non-relabeled) sample the newstate `add_path` inserts for
step `i`: observation and next observation with the rollout desired goal
concatenated on, and the step's own action, reward and terminal. -/
def origSample (path : List (PathStep (List ℚ) (List ℚ))) (i : Nat) : Sample :=
  let st := path.getD i default
  { obs := st.obs.observation ++ st.obs.desired_goal
    action := st.action
    reward := st.reward
    terminal := st.terminal
    next_obs := st.next_obs.observation ++ st.next_obs.desired_goal }

/-- `np.random.choice(np.arange(i + 1, path_len), k, replace=True)`: the
`j`-th draw for step `i`, for choice oracle `r`; always a value in
`[i + 1, path_len)` when `i + 1 < path_len`. -/
def newstateSelIdx (r : Nat → Nat → Nat) (L i j : Nat) : Nat :=
  i + 1 + r i j % (L - 1 - i)

/-- The relabeled sample of step `i` with sampled goal index `m`: the goal
`g` is the achieved goal of `next_obs[m]`, concatenated onto step `i`'s
observation and next observation, with reward
`env.compute_reward(next_obs[i].achieved_goal, g, None)`. -/
def relabelSample (compute_reward : List ℚ → List ℚ → ℚ)
    (path : List (PathStep (List ℚ) (List ℚ))) (i m : Nat) : Sample :=
  let g := (path.getD m default).next_obs.achieved_goal
  let st := path.getD i default
  { obs := st.obs.observation ++ g
    action := st.action
    reward := compute_reward st.next_obs.achieved_goal g
    terminal := st.terminal
    next_obs := st.next_obs.observation ++ g }

/-- The sequence of `add_sample` argument tuples produced by the loop of
`newstateObsDictRelabelingBuffer.add_path`: for each step `i` the original
sample, followed (except after the last step, where the loop breaks) by `k`
relabeled samples with goal indices drawn from `[i + 1, path_len)`. -/
def newstatePathSamples (compute_reward : List ℚ → List ℚ → ℚ) (k : Nat)
    (r : Nat → Nat → Nat) (path : List (PathStep (List ℚ) (List ℚ))) :
    List Sample :=
  (List.range path.length).bind (fun i =>
    origSample path i ::
      (if i + 1 < path.length then
        (List.range k).map (fun j =>
          relabelSample compute_reward path i (newstateSelIdx r path.length i j))
      else []))

/-- `newstateObsDictRelabelingBuffer.add_path`: run `add_sample` on every
produced sample in order. -/
def NewstateBuf.add_path (s : NewstateBuf)
    (compute_reward : List ℚ → List ℚ → ℚ) (r : Nat → Nat → Nat)
    (path : List (PathStep (List ℚ) (List ℚ))) : NewstateBuf :=
  (newstatePathSamples compute_reward s.k r path).foldl NewstateBuf.insert s

/-- `newstateObsDictRelabelingBuffer._sample_indices` / `random_batch`
index draw for oracle `r`. -/
def NewstateBuf.sampleIndex (s : NewstateBuf) (r : Nat) : Nat :=
  r % s._size

/-- The `rewards` entry of `newstateObsDictRelabelingBuffer.random_batch`:
`self._rewards[indices]` at batch position `j`, for index oracle `rs`. -/
def NewstateBuf.random_batch_rewards (s : NewstateBuf) (rs : Nat → Nat)
    (j : Nat) : Option ℚ :=
  s._rewards (s.sampleIndex (rs j))

instance : Inhabited Sample := ⟨⟨[], [], 0, false, []⟩⟩

theorem bind_const_length_length {X : Type} (f : Nat → List X) (c : Nat)
    (hc : ∀ i, (f i).length = c) (n : Nat) :
    ((List.range n).bind f).length = n * c := by
  rw [List.length_bind]
  have h1 : ∀ a ∈ List.range n, (List.length ∘ f) a = (fun _ => c) a :=
    fun a _ => hc a
  rw [List.map_eq_map_iff.mpr h1, List.map_const', List.length_range,
    List.sum_const_nat]

theorem bind_const_length_get {X : Type} (f : Nat → List X) (c : Nat)
    (hc : ∀ i, (f i).length = c) :
    ∀ n i t, i < n → t < c →
      ((List.range n).bind f).get? (i * c + t) = (f i).get? t := by
  intro n
  induction n with
  | zero => intro i t hi _; omega
  | succ m ih =>
      intro i t hi ht
      rw [List.range_succ]
      show ((List.range m ++ [m]).flatMap f).get? (i * c + t) = _
      rw [List.flatMap_append]
      rcases Nat.lt_or_ge i m with him | him
      · rw [List.get?_append]
        · exact ih i t him ht
        · show i * c + t < ((List.range m).bind f).length
          rw [bind_const_length_length f c hc m]
          have h1 : i * c + t < (i + 1) * c := by
            have h0 : (i + 1) * c = i * c + c := by ring
            omega
          have h2 : (i + 1) * c ≤ m * c := Nat.mul_le_mul_right c him
          omega
      · have him' : i = m := by omega
        rw [him']
        rw [List.get?_append_right]
        · show ([m].flatMap f).get? (m * c + t - ((List.range m).bind f).length) = _
          rw [bind_const_length_length f c hc m]
          have hidx : m * c + t - m * c = t := by omega
          rw [hidx]
          simp
        · show ((List.range m).bind f).length ≤ m * c + t
          rw [bind_const_length_length f c hc m]
          omega

theorem newstatePathSamples_split (compute_reward : List ℚ → List ℚ → ℚ)
    (k : Nat) (r : Nat → Nat → Nat) (path : List (PathStep (List ℚ) (List ℚ)))
    (n : Nat) (hn : path.length = n + 1) :
    newstatePathSamples compute_reward k r path =
      ((List.range n).bind (fun i =>
        origSample path i :: (List.range k).map (fun j =>
          relabelSample compute_reward path i (newstateSelIdx r path.length i j)))) ++
      [origSample path n] := by
  unfold newstatePathSamples
  rw [hn, List.range_succ]
  show (List.range n ++ [n]).flatMap _ = _
  rw [List.flatMap_append]
  congr 1
  · apply List.flatMap_congr
    intro i hi
    rw [List.mem_range] at hi
    rw [if_pos (by omega)]
  · have hnot : ¬ (n + 1 < n + 1) := by omega
    simp [hnot]

theorem add_mod_ne_self (top c M : Nat) (htop : top < M) (hc1 : 0 < c)
    (hc2 : c < M) : (top + c) % M ≠ top := by
  rcases Nat.lt_or_ge (top + c) M with h | h
  · rw [Nat.mod_eq_of_lt h]
    omega
  · have heq : (top + c) % M = top + c - M := by
      have h1 : (top + c) % M = ((top + c - M) + M) % M := by
        congr 1
        omega
      rw [h1, Nat.add_mod_right, Nat.mod_eq_of_lt (by omega)]
    rw [heq]
    omega

theorem newstate_fold_top_size (samples : List Sample) :
    ∀ s : NewstateBuf, 0 < s.max_size → s._top < s.max_size →
      s._size ≤ s.max_size →
      (samples.foldl NewstateBuf.insert s).max_size = s.max_size ∧
      (samples.foldl NewstateBuf.insert s)._top =
        (s._top + samples.length) % s.max_size ∧
      (samples.foldl NewstateBuf.insert s)._size =
        min (s._size + samples.length) s.max_size := by
  induction samples with
  | nil =>
      intro s hM htop hsz
      refine ⟨rfl, ?_, ?_⟩
      · show s._top = (s._top + 0) % s.max_size
        rw [Nat.add_zero, Nat.mod_eq_of_lt htop]
      · show s._size = min (s._size + 0) s.max_size
        omega
  | cons smp t ih =>
      intro s hM htop hsz
      have hM' : 0 < (s.insert smp).max_size := hM
      have htop' : (s.insert smp)._top < (s.insert smp).max_size :=
        Nat.mod_lt _ hM
      have hsz' : (s.insert smp)._size ≤ (s.insert smp).max_size := by
        show (if s._size < s.max_size then s._size + 1 else s._size) ≤ s.max_size
        split_ifs <;> omega
      have h := ih (s.insert smp) hM' htop' hsz'
      refine ⟨?_, ?_, ?_⟩
      · rw [List.foldl_cons]
        exact h.1
      · rw [List.foldl_cons, h.2.1]
        show ((s._top + 1) % s.max_size + t.length) % s.max_size = _
        rw [Nat.mod_add_mod]
        congr 1
        simp only [List.length_cons]
        omega
      · rw [List.foldl_cons, h.2.2]
        show min ((if s._size < s.max_size then s._size + 1 else s._size) +
          t.length) s.max_size = min (s._size + (smp :: t).length) s.max_size
        simp only [List.length_cons]
        split_ifs <;> omega

theorem newstate_fold_rewards_out (samples : List Sample) :
    ∀ s : NewstateBuf, s._top < s.max_size →
      ∀ j, (∀ i, i < samples.length → (s._top + i) % s.max_size ≠ j) →
      (samples.foldl NewstateBuf.insert s)._rewards j = s._rewards j := by
  induction samples with
  | nil => intro s _ j _; rfl
  | cons smp t ih =>
      intro s htop j hj
      have hM : 0 < s.max_size := by omega
      have hnext : ∀ i, i < t.length →
          ((s.insert smp)._top + i) % (s.insert smp).max_size ≠ j := by
        intro i hi
        show ((s._top + 1) % s.max_size + i) % s.max_size ≠ j
        rw [Nat.mod_add_mod]
        have he : s._top + 1 + i = s._top + (1 + i) := by omega
        rw [he]
        exact hj (1 + i) (by simp only [List.length_cons]; omega)
      rw [List.foldl_cons, ih (s.insert smp) (Nat.mod_lt _ hM) j hnext]
      show (if j = s._top then some smp.reward else s._rewards j) = s._rewards j
      rw [if_neg]
      intro hje
      refine hj 0 (by simp) ?_
      rw [Nat.add_zero, Nat.mod_eq_of_lt htop]
      omega

theorem newstate_fold_rewards_in (samples : List Sample) :
    ∀ s : NewstateBuf, s._top < s.max_size → samples.length ≤ s.max_size →
      ∀ m, m < samples.length →
        (samples.foldl NewstateBuf.insert s)._rewards
            ((s._top + m) % s.max_size) =
          some ((samples.getD m default).reward) := by
  induction samples with
  | nil => intro s _ _ m hm; simp at hm
  | cons smp t ih =>
      intro s htop hlen m hm
      have hM : 0 < s.max_size := by omega
      rw [List.foldl_cons]
      cases m with
      | zero =>
          have hj : (s._top + 0) % s.max_size = s._top := by
            rw [Nat.add_zero, Nat.mod_eq_of_lt htop]
          rw [hj]
          have hout : ∀ i, i < t.length →
              ((s.insert smp)._top + i) % (s.insert smp).max_size ≠ s._top := by
            intro i hi
            show ((s._top + 1) % s.max_size + i) % s.max_size ≠ s._top
            rw [Nat.mod_add_mod]
            have he : s._top + 1 + i = s._top + (1 + i) := by omega
            rw [he]
            apply add_mod_ne_self s._top (1 + i) s.max_size htop (by omega)
            simp only [List.length_cons] at hlen
            omega
          rw [newstate_fold_rewards_out t (s.insert smp) (Nat.mod_lt _ hM)
            s._top hout]
          show (if s._top = s._top then some smp.reward else _) = _
          rw [if_pos rfl]
          rfl
      | succ m' =>
          have hlen' : t.length ≤ (s.insert smp).max_size := by
            show t.length ≤ s.max_size
            simp only [List.length_cons] at hlen
            omega
          have h := ih (s.insert smp) (Nat.mod_lt _ hM) hlen' m'
            (by simp only [List.length_cons] at hm; omega)
          have hidx : ((s.insert smp)._top + m') % (s.insert smp).max_size =
              (s._top + (m' + 1)) % s.max_size := by
            show ((s._top + 1) % s.max_size + m') % s.max_size = _
            rw [Nat.mod_add_mod]
            congr 1
            omega
          rw [hidx] at h
          rw [h]
          rfl

/-- C6: `newstateObsDictRelabelingBuffer.add_path` with a path of length
`L ≥ 1` inserts exactly `L + k * (L - 1)` samples into the buffer (the write
pointer advances by that many slots and `_size` grows accordingly, capped at
`max_size`): one original sample per step at sample position `i * (k + 1)`,
plus, for every step `i` except the last, `k` relabeled samples at positions
`i * (k + 1) + 1 + j`; the `j`-th relabeled sample of step `i` draws a goal
index in `[i + 1, L)`, uses the achieved goal of that strictly later step as
its goal, concatenates it onto step `i`'s observation and next observation,
and has reward `env.compute_reward` of step `i`'s achieved goal and the
sampled goal. -/
theorem newstate_add_path_relabel_spec (s : NewstateBuf)
    (compute_reward : List ℚ → List ℚ → ℚ) (r : Nat → Nat → Nat)
    (path : List (PathStep (List ℚ) (List ℚ)))
    (hM : 0 < s.max_size) (htop : s._top < s.max_size)
    (hsz : s._size ≤ s.max_size) (hL : 1 ≤ path.length) :
    (newstatePathSamples compute_reward s.k r path).length =
      path.length + s.k * (path.length - 1) ∧
    (s.add_path compute_reward r path)._top =
      (s._top + (path.length + s.k * (path.length - 1))) % s.max_size ∧
    (s.add_path compute_reward r path)._size =
      min (s._size + (path.length + s.k * (path.length - 1))) s.max_size ∧
    (∀ i, i < path.length →
      (newstatePathSamples compute_reward s.k r path).get? (i * (s.k + 1)) =
        some (origSample path i)) ∧
    (∀ i j, i + 1 < path.length → j < s.k →
      i + 1 ≤ newstateSelIdx r path.length i j ∧
      newstateSelIdx r path.length i j < path.length ∧
      (newstatePathSamples compute_reward s.k r path).get?
          (i * (s.k + 1) + 1 + j) =
        some { obs := (path.getD i default).obs.observation ++
                 (path.getD (newstateSelIdx r path.length i j)
                   default).next_obs.achieved_goal
               action := (path.getD i default).action
               reward := compute_reward
                 (path.getD i default).next_obs.achieved_goal
                 ((path.getD (newstateSelIdx r path.length i j)
                   default).next_obs.achieved_goal)
               terminal := (path.getD i default).terminal
               next_obs := (path.getD i default).next_obs.observation ++
                 (path.getD (newstateSelIdx r path.length i j)
                   default).next_obs.achieved_goal }) := by
  obtain ⟨n, hn⟩ : ∃ n, path.length = n + 1 := ⟨path.length - 1, by omega⟩
  have hsplit := newstatePathSamples_split compute_reward s.k r path n hn
  have hflen : ∀ i, (origSample path i :: (List.range s.k).map (fun j =>
      relabelSample compute_reward path i
        (newstateSelIdx r path.length i j))).length = s.k + 1 := by
    intro i
    simp
  have hblen : ((List.range n).bind (fun i =>
      origSample path i :: (List.range s.k).map (fun j =>
        relabelSample compute_reward path i
          (newstateSelIdx r path.length i j)))).length = n * (s.k + 1) :=
    bind_const_length_length _ (s.k + 1) hflen n
  have hlen : (newstatePathSamples compute_reward s.k r path).length =
      path.length + s.k * (path.length - 1) := by
    rw [hsplit, List.length_append, hblen, hn]
    have h1 : n * (s.k + 1) = n * s.k + n := by ring
    have h2 : s.k * (n + 1 - 1) = n * s.k := by
      rw [Nat.add_sub_cancel]
      ring
    simp only [List.length_singleton]
    omega
  have hfold := newstate_fold_top_size
    (newstatePathSamples compute_reward s.k r path) s hM htop hsz
  refine ⟨hlen, ?_, ?_, ?_, ?_⟩
  · show ((newstatePathSamples compute_reward s.k r path).foldl
      NewstateBuf.insert s)._top = _
    rw [hfold.2.1, hlen]
  · show ((newstatePathSamples compute_reward s.k r path).foldl
      NewstateBuf.insert s)._size = _
    rw [hfold.2.2, hlen]
  · intro i hi
    rw [hsplit]
    rcases Nat.lt_or_ge i n with hin | hin
    · rw [List.get?_append (by
        rw [hblen]
        exact mul_lt_mul_of_pos_right hin (by omega))]
      exact bind_const_length_get _ (s.k + 1) hflen n i 0 hin (by omega)
    · have hieq : i = n := by omega
      subst hieq
      rw [List.get?_append_right (by rw [hblen])]
      simp [hblen]
  · intro i j hij hj
    have hpos : 0 < path.length - 1 - i := by omega
    refine ⟨Nat.le_add_right _ _, ?_, ?_⟩
    · have hmod : r i j % (path.length - 1 - i) < path.length - 1 - i :=
        Nat.mod_lt _ hpos
      unfold newstateSelIdx
      omega
    · have hin : i < n := by omega
      rw [hsplit]
      have hp1 : i * (s.k + 1) + 1 + j < (i + 1) * (s.k + 1) := by
        have he : (i + 1) * (s.k + 1) = i * (s.k + 1) + s.k + 1 := by ring
        omega
      have hp2 : (i + 1) * (s.k + 1) ≤ n * (s.k + 1) :=
        Nat.mul_le_mul_right _ (by omega)
      rw [List.get?_append (by rw [hblen]; omega)]
      have hidx : i * (s.k + 1) + 1 + j = i * (s.k + 1) + (j + 1) := by omega
      rw [hidx,
        bind_const_length_get _ (s.k + 1) hflen n i (j + 1) hin (by omega)]
      rw [List.get?_cons_succ, List.get?_map, List.get?_range hj]
      rfl

/-- Witness for `newstate_add_path_relabel_spec`: a path of length 2 with
`k = 1` yields 3 inserted samples, and the relabeled sample of step 0 takes
the achieved goal of step 1. -/
theorem newstate_add_path_relabel_spec_witness :
    (newstatePathSamples (fun _ _ => 7) 1 (fun _ _ => 0)
        [⟨⟨[1], [2], [3]⟩, [0], 5, ⟨[4], [5], [6]⟩, false⟩,
         ⟨⟨[7], [8], [9]⟩, [1], 6, ⟨[10], [11], [12]⟩, true⟩]).length = 3 ∧
    ((newstateInit 5 1).add_path (fun _ _ => 7) (fun _ _ => 0)
        [⟨⟨[1], [2], [3]⟩, [0], 5, ⟨[4], [5], [6]⟩, false⟩,
         ⟨⟨[7], [8], [9]⟩, [1], 6, ⟨[10], [11], [12]⟩, true⟩])._top = 3 ∧
    (newstatePathSamples (fun _ _ => 7) 1 (fun _ _ => 0)
        [⟨⟨[1], [2], [3]⟩, [0], 5, ⟨[4], [5], [6]⟩, false⟩,
         ⟨⟨[7], [8], [9]⟩, [1], 6, ⟨[10], [11], [12]⟩, true⟩]).get? 1 =
      some ⟨[1, 12], [0], 7, false, [4, 12]⟩ := by
  have h := newstate_add_path_relabel_spec (newstateInit 5 1) (fun _ _ => 7)
    (fun _ _ => 0)
    [⟨⟨[1], [2], [3]⟩, [0], 5, ⟨[4], [5], [6]⟩, false⟩,
     ⟨⟨[7], [8], [9]⟩, [1], 6, ⟨[10], [11], [12]⟩, true⟩]
    (by decide) (by decide) (by decide) (by decide)
  have hr := h.2.2.2.2 0 0 (by decide) (by decide)
  exact ⟨h.1, h.2.1, hr.2.2⟩

theorem setIdx_isSome {X : Type} (f : Nat → Option X) (i : Nat) (v : X)
    (j : Nat) (h : (f j).isSome) : (setIdx f i v j).isSome := by
  unfold setIdx
  split <;> simp [h]

theorem setIdx_self {X : Type} (f : Nat → Option X) (i : Nat) (v : X) :
    setIdx f i v i = some v := by
  simp [setIdx]

/-- Slot `i` of the base buffer holds data written by some inserted
transition: every storage array has been written there. -/
def ObsDictRelabelingBuffer.slotWritten {A V : Type}
    (s : ObsDictRelabelingBuffer A V) (i : Nat) : Prop :=
  (s._actions i).isSome ∧ (s._terminals i).isSome ∧
    (s._obs i).isSome ∧ (s._next_obs i).isSome

/-- The base-class invariant of reachable states. -/
def ObsDictRelabelingBuffer.inv {A V : Type}
    (s : ObsDictRelabelingBuffer A V) : Prop :=
  0 < s.max_size ∧ s._top < s.max_size ∧ s._size ≤ s.max_size ∧
    (s._size < s.max_size → s._top = s._size) ∧
    ∀ i, i < s._size → s.slotWritten i

theorem base_add_path_inv {A V : Type} (s : ObsDictRelabelingBuffer A V)
    (p : List (PathStep A V)) (hs : s.inv) (hp1 : 1 ≤ p.length)
    (hp2 : p.length ≤ s.max_size) :
    (s.add_path p).inv ∧ (s.add_path p).max_size = s.max_size := by
  obtain ⟨hM, htop, hsz, hts, hsome⟩ := hs
  have hmax : (s.add_path p).max_size = s.max_size := rfl
  refine ⟨⟨by rw [hmax]; exact hM, ?_, ?_, ?_, ?_⟩, hmax⟩
  · show (s._top + p.length) % s.max_size < s.max_size
    exact Nat.mod_lt _ hM
  · show min (s._size + p.length) s.max_size ≤ s.max_size
    omega
  · intro hlt
    show (s._top + p.length) % s.max_size = min (s._size + p.length) s.max_size
    have h1 : min (s._size + p.length) s.max_size < s.max_size := hlt
    have h2 : s._size + p.length < s.max_size := by omega
    have h3 : s._size < s.max_size := by omega
    rw [hts h3, Nat.mod_eq_of_lt h2]
    omega
  · intro i hi
    have hi' : i < min (s._size + p.length) s.max_size := hi
    rcases Nat.lt_or_ge i s._size with hold | hnew
    · obtain ⟨ha, ht, ho, hn⟩ := hsome i hold
      exact ⟨writePathArray_isSome _ _ _ _ _ ha,
        writePathArray_isSome _ _ _ _ _ ht,
        writePathArray_isSome _ _ _ _ _ ho,
        writePathArray_isSome _ _ _ _ _ hn⟩
    · have h3 : s._size < s.max_size := by omega
      have htopsz := hts h3
      have hd : i - s._size < p.length := by omega
      have hmod : (s._top + (i - s._size)) % s.max_size = i := by
        rw [htopsz]
        have : s._size + (i - s._size) = i := by omega
        rw [this, Nat.mod_eq_of_lt (by omega)]
      refine ⟨?_, ?_, ?_, ?_⟩
      · show ((s.add_path p)._actions i).isSome
        rw [← hmod]
        show (writePathArray s._top s.max_size (p.map (·.action)) s._actions
          ((s._top + (i - s._size)) % s.max_size)).isSome
        rw [writePathArray_in _ _ _ _ htop (by simpa using hp2) _
          (by simpa using hd)]
        rw [List.get?_eq_get (by simpa using hd)]
        rfl
      · show ((s.add_path p)._terminals i).isSome
        rw [← hmod]
        show (writePathArray s._top s.max_size (p.map (·.terminal)) s._terminals
          ((s._top + (i - s._size)) % s.max_size)).isSome
        rw [writePathArray_in _ _ _ _ htop (by simpa using hp2) _
          (by simpa using hd)]
        rw [List.get?_eq_get (by simpa using hd)]
        rfl
      · show ((s.add_path p)._obs i).isSome
        rw [← hmod]
        show (writePathArray s._top s.max_size (p.map (·.obs)) s._obs
          ((s._top + (i - s._size)) % s.max_size)).isSome
        rw [writePathArray_in _ _ _ _ htop (by simpa using hp2) _
          (by simpa using hd)]
        rw [List.get?_eq_get (by simpa using hd)]
        rfl
      · show ((s.add_path p)._next_obs i).isSome
        rw [← hmod]
        show (writePathArray s._top s.max_size (p.map (·.next_obs)) s._next_obs
          ((s._top + (i - s._size)) % s.max_size)).isSome
        rw [writePathArray_in _ _ _ _ htop (by simpa using hp2) _
          (by simpa using hd)]
        rw [List.get?_eq_get (by simpa using hd)]
        rfl

theorem base_fold_inv {A V : Type} (paths : List (List (PathStep A V))) :
    ∀ s : ObsDictRelabelingBuffer A V, s.inv →
      (∀ p ∈ paths, 1 ≤ p.length ∧ p.length ≤ s.max_size) →
      (paths.foldl ObsDictRelabelingBuffer.add_path s).inv ∧
      (paths.foldl ObsDictRelabelingBuffer.add_path s).max_size = s.max_size := by
  induction paths with
  | nil => intro s hs _; exact ⟨hs, rfl⟩
  | cons p t ih =>
      intro s hs hl
      have hp := hl p (by simp)
      have hstep := base_add_path_inv s p hs hp.1 hp.2
      have hrec := ih (s.add_path p) hstep.1 (by
        intro q hq
        have := hl q (by simp [hq])
        rw [hstep.2]
        exact this)
      rw [List.foldl_cons]
      exact ⟨hrec.1, by rw [hrec.2, hstep.2]⟩

theorem initBuffer_inv (A V : Type) (M : Nat) (hM : 0 < M) (frg feg : ℚ) :
    (initBuffer A V M frg feg).inv := by
  refine ⟨hM, hM, by simp [initBuffer], by simp [initBuffer], ?_⟩
  intro i hi
  simp [initBuffer] at hi

/-- One insertion attempt into the img buffer: the post-state of
`add_sample`, whether or not it raised (on a raise the caller sees the
partially updated state with the pointer not advanced). -/
def ImgBuf.insertAttempt (s : ImgBuf) (smp : Sample) : ImgBuf :=
  (s.add_sample smp.obs smp.action smp.reward smp.terminal smp.next_obs).1

/-- Slot `i` of the img buffer holds data written by some insertion. -/
def ImgBuf.slotWritten (s : ImgBuf) (i : Nat) : Prop :=
  (s._actions i).isSome ∧ (s._rewards i).isSome ∧ (s._terminals i).isSome ∧
    (s._obs i).isSome ∧ (s._next_obs i).isSome

/-- The img-class invariant of reachable states. -/
def ImgBuf.inv (s : ImgBuf) : Prop :=
  0 < s.max_size ∧ s._top < s.max_size ∧ s._size ≤ s.max_size ∧
    (s._size < s.max_size → s._top = s._size) ∧
    ∀ i, i < s._size → s.slotWritten i

theorem img_insertAttempt_inv (s : ImgBuf) (smp : Sample) (hs : s.inv) :
    (s.insertAttempt smp).inv ∧ (s.insertAttempt smp).max_size = s.max_size := by
  obtain ⟨hM, htop, hsz, hts, hsome⟩ := hs
  by_cases h1 : smp.obs.length = s.obs_dim
  · by_cases h2 : smp.next_obs.length = s.obs_dim
    · have hMax : (s.insertAttempt smp).max_size = s.max_size := by
        simp [ImgBuf.insertAttempt, ImgBuf.add_sample, storeRow, h1, h2,
          ImgBuf._advance]
      have hTop : (s.insertAttempt smp)._top = (s._top + 1) % s.max_size := by
        simp [ImgBuf.insertAttempt, ImgBuf.add_sample, storeRow, h1, h2,
          ImgBuf._advance]
      have hSize : (s.insertAttempt smp)._size =
          (if s._size < s.max_size then s._size + 1 else s._size) := by
        simp [ImgBuf.insertAttempt, ImgBuf.add_sample, storeRow, h1, h2,
          ImgBuf._advance]
      have hA : (s.insertAttempt smp)._actions =
          setIdx s._actions s._top smp.action := by
        simp [ImgBuf.insertAttempt, ImgBuf.add_sample, storeRow, h1, h2,
          ImgBuf._advance]
      have hR : (s.insertAttempt smp)._rewards =
          setIdx s._rewards s._top smp.reward := by
        simp [ImgBuf.insertAttempt, ImgBuf.add_sample, storeRow, h1, h2,
          ImgBuf._advance]
      have hT : (s.insertAttempt smp)._terminals =
          setIdx s._terminals s._top smp.terminal := by
        simp [ImgBuf.insertAttempt, ImgBuf.add_sample, storeRow, h1, h2,
          ImgBuf._advance]
      have hO : (s.insertAttempt smp)._obs = setIdx s._obs s._top smp.obs := by
        simp [ImgBuf.insertAttempt, ImgBuf.add_sample, storeRow, h1, h2,
          ImgBuf._advance]
      have hN : (s.insertAttempt smp)._next_obs =
          setIdx s._next_obs s._top smp.next_obs := by
        simp [ImgBuf.insertAttempt, ImgBuf.add_sample, storeRow, h1, h2,
          ImgBuf._advance]
      refine ⟨⟨by omega, ?_, ?_, ?_, ?_⟩, hMax⟩
      · rw [hTop, hMax]
        exact Nat.mod_lt _ hM
      · rw [hSize, hMax]
        split_ifs <;> omega
      · rw [hSize, hMax, hTop]
        intro hlt
        split_ifs at hlt ⊢ with hc
        · have h3 := hts hc
          rw [h3, Nat.mod_eq_of_lt (by omega)]
        · omega
      · intro i hi
        rw [hSize] at hi
        unfold ImgBuf.slotWritten
        rw [hA, hR, hT, hO, hN]
        rcases Nat.lt_or_ge i s._size with hold | hnew
        · obtain ⟨ha, hr, ht, ho, hn⟩ := hsome i hold
          exact ⟨setIdx_isSome _ _ _ _ ha, setIdx_isSome _ _ _ _ hr,
            setIdx_isSome _ _ _ _ ht, setIdx_isSome _ _ _ _ ho,
            setIdx_isSome _ _ _ _ hn⟩
        · have hc : s._size < s.max_size := by
            by_contra hc
            rw [if_neg hc] at hi
            omega
          rw [if_pos hc] at hi
          have hieq : i = s._size := by omega
          have hit : i = s._top := by rw [hieq, hts hc]
          subst hit
          rw [setIdx_self, setIdx_self, setIdx_self, setIdx_self, setIdx_self]
          exact ⟨rfl, rfl, rfl, rfl, rfl⟩
    · have hMax : (s.insertAttempt smp).max_size = s.max_size := by
        simp [ImgBuf.insertAttempt, ImgBuf.add_sample, storeRow, h1, h2]
      have hTop : (s.insertAttempt smp)._top = s._top := by
        simp [ImgBuf.insertAttempt, ImgBuf.add_sample, storeRow, h1, h2]
      have hSize : (s.insertAttempt smp)._size = s._size := by
        simp [ImgBuf.insertAttempt, ImgBuf.add_sample, storeRow, h1, h2]
      have hA : (s.insertAttempt smp)._actions =
          setIdx s._actions s._top smp.action := by
        simp [ImgBuf.insertAttempt, ImgBuf.add_sample, storeRow, h1, h2]
      have hR : (s.insertAttempt smp)._rewards =
          setIdx s._rewards s._top smp.reward := by
        simp [ImgBuf.insertAttempt, ImgBuf.add_sample, storeRow, h1, h2]
      have hT : (s.insertAttempt smp)._terminals =
          setIdx s._terminals s._top smp.terminal := by
        simp [ImgBuf.insertAttempt, ImgBuf.add_sample, storeRow, h1, h2]
      have hO : (s.insertAttempt smp)._obs = setIdx s._obs s._top smp.obs := by
        simp [ImgBuf.insertAttempt, ImgBuf.add_sample, storeRow, h1, h2]
      have hN : (s.insertAttempt smp)._next_obs = s._next_obs := by
        simp [ImgBuf.insertAttempt, ImgBuf.add_sample, storeRow, h1, h2]
      refine ⟨⟨by omega, by omega, by omega, ?_, ?_⟩, hMax⟩
      · rw [hSize, hMax, hTop]
        exact hts
      · intro i hi
        rw [hSize] at hi
        obtain ⟨ha, hr, ht, ho, hn⟩ := hsome i hi
        exact ⟨by rw [hA]; exact setIdx_isSome _ _ _ _ ha,
          by rw [hR]; exact setIdx_isSome _ _ _ _ hr,
          by rw [hT]; exact setIdx_isSome _ _ _ _ ht,
          by rw [hO]; exact setIdx_isSome _ _ _ _ ho,
          by rw [hN]; exact hn⟩
  · have hMax : (s.insertAttempt smp).max_size = s.max_size := by
      simp [ImgBuf.insertAttempt, ImgBuf.add_sample, storeRow, h1]
    have hTop : (s.insertAttempt smp)._top = s._top := by
      simp [ImgBuf.insertAttempt, ImgBuf.add_sample, storeRow, h1]
    have hSize : (s.insertAttempt smp)._size = s._size := by
      simp [ImgBuf.insertAttempt, ImgBuf.add_sample, storeRow, h1]
    have hA : (s.insertAttempt smp)._actions =
        setIdx s._actions s._top smp.action := by
      simp [ImgBuf.insertAttempt, ImgBuf.add_sample, storeRow, h1]
    have hR : (s.insertAttempt smp)._rewards =
        setIdx s._rewards s._top smp.reward := by
      simp [ImgBuf.insertAttempt, ImgBuf.add_sample, storeRow, h1]
    have hT : (s.insertAttempt smp)._terminals =
        setIdx s._terminals s._top smp.terminal := by
      simp [ImgBuf.insertAttempt, ImgBuf.add_sample, storeRow, h1]
    have hO : (s.insertAttempt smp)._obs = s._obs := by
      simp [ImgBuf.insertAttempt, ImgBuf.add_sample, storeRow, h1]
    have hN : (s.insertAttempt smp)._next_obs = s._next_obs := by
      simp [ImgBuf.insertAttempt, ImgBuf.add_sample, storeRow, h1]
    refine ⟨⟨by omega, by omega, by omega, ?_, ?_⟩, hMax⟩
    · rw [hSize, hMax, hTop]
      exact hts
    · intro i hi
      rw [hSize] at hi
      obtain ⟨ha, hr, ht, ho, hn⟩ := hsome i hi
      exact ⟨by rw [hA]; exact setIdx_isSome _ _ _ _ ha,
        by rw [hR]; exact setIdx_isSome _ _ _ _ hr,
        by rw [hT]; exact setIdx_isSome _ _ _ _ ht,
        by rw [hO]; exact ho,
        by rw [hN]; exact hn⟩

theorem img_fold_inv (samples : List Sample) :
    ∀ s : ImgBuf, s.inv →
      (samples.foldl ImgBuf.insertAttempt s).inv ∧
      (samples.foldl ImgBuf.insertAttempt s).max_size = s.max_size := by
  induction samples with
  | nil => intro s hs; exact ⟨hs, rfl⟩
  | cons smp t ih =>
      intro s hs
      have hstep := img_insertAttempt_inv s smp hs
      have hrec := ih (s.insertAttempt smp) hstep.1
      rw [List.foldl_cons]
      exact ⟨hrec.1, by rw [hrec.2, hstep.2]⟩

/-- Slot `i` of the newstate buffer holds data written by some insertion. -/
def NewstateBuf.slotWritten (s : NewstateBuf) (i : Nat) : Prop :=
  (s._actions i).isSome ∧ (s._rewards i).isSome ∧ (s._terminals i).isSome ∧
    (s._obs i).isSome ∧ (s._next_obs i).isSome

/-- The newstate-class invariant of reachable states. -/
def NewstateBuf.inv (s : NewstateBuf) : Prop :=
  0 < s.max_size ∧ s._top < s.max_size ∧ s._size ≤ s.max_size ∧
    (s._size < s.max_size → s._top = s._size) ∧
    ∀ i, i < s._size → s.slotWritten i

theorem newstate_insert_inv (s : NewstateBuf) (smp : Sample) (hs : s.inv) :
    (s.insert smp).inv ∧ (s.insert smp).max_size = s.max_size ∧
      (s.insert smp).k = s.k := by
  obtain ⟨hM, htop, hsz, hts, hsome⟩ := hs
  refine ⟨⟨hM, Nat.mod_lt _ hM, ?_, ?_, ?_⟩, rfl, rfl⟩
  · show (if s._size < s.max_size then s._size + 1 else s._size) ≤ s.max_size
    split_ifs <;> omega
  · show (if s._size < s.max_size then s._size + 1 else s._size) < s.max_size →
      (s._top + 1) % s.max_size =
        (if s._size < s.max_size then s._size + 1 else s._size)
    intro hlt
    split_ifs at hlt ⊢ with hc
    · rw [hts hc, Nat.mod_eq_of_lt (by omega)]
    · omega
  · intro i hi
    show (setIdx s._actions s._top smp.action i).isSome ∧
      (setIdx s._rewards s._top smp.reward i).isSome ∧
      (setIdx s._terminals s._top smp.terminal i).isSome ∧
      (setIdx s._obs s._top smp.obs i).isSome ∧
      (setIdx s._next_obs s._top smp.next_obs i).isSome
    have hi' : i < (if s._size < s.max_size then s._size + 1 else s._size) := hi
    rcases Nat.lt_or_ge i s._size with hold | hnew
    · obtain ⟨ha, hr, ht, ho, hn⟩ := hsome i hold
      exact ⟨setIdx_isSome _ _ _ _ ha, setIdx_isSome _ _ _ _ hr,
        setIdx_isSome _ _ _ _ ht, setIdx_isSome _ _ _ _ ho,
        setIdx_isSome _ _ _ _ hn⟩
    · have hc : s._size < s.max_size := by
        by_contra hc
        rw [if_neg hc] at hi'
        omega
      rw [if_pos hc] at hi'
      have hit : i = s._top := by rw [hts hc]; omega
      subst hit
      rw [setIdx_self, setIdx_self, setIdx_self, setIdx_self, setIdx_self]
      exact ⟨rfl, rfl, rfl, rfl, rfl⟩

theorem newstate_fold_inv (samples : List Sample) :
    ∀ s : NewstateBuf, s.inv →
      (samples.foldl NewstateBuf.insert s).inv ∧
      (samples.foldl NewstateBuf.insert s).max_size = s.max_size := by
  induction samples with
  | nil => intro s hs; exact ⟨hs, rfl⟩
  | cons smp t ih =>
      intro s hs
      have hstep := newstate_insert_inv s smp hs
      have hrec := ih (s.insert smp) hstep.1
      rw [List.foldl_cons]
      exact ⟨hrec.1, by rw [hrec.2, hstep.2.1]⟩

/-- A sequence of `add_path` insertions into a freshly constructed base
buffer. -/
def runBase (A V : Type) (M : Nat) (paths : List (List (PathStep A V))) :
    ObsDictRelabelingBuffer A V :=
  paths.foldl ObsDictRelabelingBuffer.add_path (initBuffer A V M 1 0)

/-- A sequence of `add_sample` attempts on a freshly constructed img
buffer (its `add_path` only issues such `add_sample` calls). -/
def runImg (M dim : Nat) (samples : List Sample) : ImgBuf :=
  samples.foldl ImgBuf.insertAttempt (imgInit M dim)

/-- A sequence of `add_sample` insertions on a freshly constructed newstate
buffer (its `add_path` is a fold of such insertions). -/
def runNewstate (M k : Nat) (samples : List Sample) : NewstateBuf :=
  samples.foldl NewstateBuf.insert (newstateInit M k)

/-- C3: for each of the three replay-buffer classes, starting from the
fresh state (`_top = 0`, `_size = 0`) and applying any sequence of
insertions (`add_path` with path lengths in `[1, max_size]` for the base
class; `add_sample` for the img and newstate classes, whose `add_path`
methods only chain `add_sample`), the state satisfies
`_top < max_size` and `_size ≤ max_size`, every buffer index in
`[0, _size)` holds data written by some inserted transition, and
`_sample_indices` / `random_batch` draw indices only from `[0, _size)`. -/
theorem every_slot_valid_spec (A V : Type) (M dim k : Nat) (hM : 0 < M)
    (paths : List (List (PathStep A V)))
    (hp : ∀ p ∈ paths, 1 ≤ p.length ∧ p.length ≤ M)
    (imgSamples nsSamples : List Sample) :
    ((runBase A V M paths)._top < M ∧ (runBase A V M paths)._size ≤ M ∧
     (∀ i, i < (runBase A V M paths)._size →
       (runBase A V M paths).slotWritten i) ∧
     (0 < (runBase A V M paths)._size → ∀ r,
       (runBase A V M paths).sampleIndex r < (runBase A V M paths)._size)) ∧
    ((runImg M dim imgSamples)._top < M ∧
     (runImg M dim imgSamples)._size ≤ M ∧
     (∀ i, i < (runImg M dim imgSamples)._size →
       (runImg M dim imgSamples).slotWritten i) ∧
     (0 < (runImg M dim imgSamples)._size → ∀ r,
       (runImg M dim imgSamples).sampleIndex r <
         (runImg M dim imgSamples)._size)) ∧
    ((runNewstate M k nsSamples)._top < M ∧
     (runNewstate M k nsSamples)._size ≤ M ∧
     (∀ i, i < (runNewstate M k nsSamples)._size →
       (runNewstate M k nsSamples).slotWritten i) ∧
     (0 < (runNewstate M k nsSamples)._size → ∀ r,
       (runNewstate M k nsSamples).sampleIndex r <
         (runNewstate M k nsSamples)._size)) := by
  refine ⟨?_, ?_, ?_⟩
  · have h := base_fold_inv paths (initBuffer A V M 1 0)
      (initBuffer_inv A V M hM 1 0) hp
    obtain ⟨⟨_, htop, hsz, _, hsome⟩, hmax⟩ := h
    rw [show (initBuffer A V M 1 0).max_size = M from rfl] at hmax
    rw [hmax] at htop hsz
    refine ⟨htop, hsz, hsome, ?_⟩
    intro hpos r
    exact Nat.mod_lt _ hpos
  · have h := img_fold_inv imgSamples (imgInit M dim)
      ⟨hM, hM, by simp [imgInit], by simp [imgInit], by simp [imgInit]⟩
    obtain ⟨⟨_, htop, hsz, _, hsome⟩, hmax⟩ := h
    rw [show (imgInit M dim).max_size = M from rfl] at hmax
    rw [hmax] at htop hsz
    refine ⟨htop, hsz, hsome, ?_⟩
    intro hpos r
    exact Nat.mod_lt _ hpos
  · have h := newstate_fold_inv nsSamples (newstateInit M k)
      ⟨hM, hM, by simp [newstateInit], by simp [newstateInit],
        by simp [newstateInit]⟩
    obtain ⟨⟨_, htop, hsz, _, hsome⟩, hmax⟩ := h
    rw [show (newstateInit M k).max_size = M from rfl] at hmax
    rw [hmax] at htop hsz
    refine ⟨htop, hsz, hsome, ?_⟩
    intro hpos r
    exact Nat.mod_lt _ hpos

/-- Witness for `every_slot_valid_spec`: after one insertion into each
freshly constructed capacity-2 buffer, slot 0 is written and a sampled
index stays below `_size`. -/
theorem every_slot_valid_spec_witness :
    (runBase ℚ ℚ 2 [[⟨⟨1, 2, 3⟩, 4, 5, ⟨6, 7, 8⟩, false⟩]])._top < 2 ∧
    (runBase ℚ ℚ 2 [[⟨⟨1, 2, 3⟩, 4, 5, ⟨6, 7, 8⟩, false⟩]]).slotWritten 0 ∧
    (runBase ℚ ℚ 2 [[⟨⟨1, 2, 3⟩, 4, 5, ⟨6, 7, 8⟩, false⟩]]).sampleIndex 5 <
      (runBase ℚ ℚ 2 [[⟨⟨1, 2, 3⟩, 4, 5, ⟨6, 7, 8⟩, false⟩]])._size ∧
    (runImg 2 1 [⟨[1], [2], 3, false, [4]⟩]).slotWritten 0 ∧
    (runNewstate 2 1 [⟨[1], [2], 3, false, [4]⟩]).slotWritten 0 := by
  have h := every_slot_valid_spec ℚ ℚ 2 1 1 (by decide)
    [[⟨⟨1, 2, 3⟩, 4, 5, ⟨6, 7, 8⟩, false⟩]] (by
      intro p hp
      simp at hp
      rw [hp]
      exact ⟨by decide, by decide⟩)
    [⟨[1], [2], 3, false, [4]⟩] [⟨[1], [2], 3, false, [4]⟩]
  refine ⟨h.1.1, ?_, ?_, ?_, ?_⟩
  · exact h.1.2.2.1 0 (by decide)
  · exact h.1.2.2.2 (by decide) 5
  · exact h.2.1.2.2.1 0 (by decide)
  · exact h.2.2.2.2.1 0 (by decide)

/-- `num_env_goals = int(batch_size * self.fraction_goals_env_goals)`. -/
def numEnvGoals (batch_size : Nat) (feg : ℚ) : ℤ :=
  pyInt (batch_size * feg)

/-- `num_rollout_goals = int(batch_size * self.fraction_goals_rollout_goals)`. -/
def numRolloutGoals (batch_size : Nat) (frg : ℚ) : ℤ :=
  pyInt (batch_size * frg)

/-- `num_future_goals = batch_size - (num_env_goals + num_rollout_goals)`. -/
def numFutureGoals (batch_size : Nat) (frg feg : ℚ) : ℤ :=
  batch_size - (numEnvGoals batch_size feg + numRolloutGoals batch_size frg)

/-- `self._next_obs[self.achieved_goal_key][i]` (zeros before first write,
per the numpy initialisation). -/
def ObsDictRelabelingBuffer.nextObsAchieved {A V : Type} [Inhabited V]
    (s : ObsDictRelabelingBuffer A V) (i : Nat) : V :=
  ((s._next_obs i).map ObsDict.achieved_goal).getD default

/-- `self._next_obs[self.desired_goal_key][i]`. -/
def ObsDictRelabelingBuffer.nextObsDesired {A V : Type} [Inhabited V]
    (s : ObsDictRelabelingBuffer A V) (i : Nat) : V :=
  ((s._next_obs i).map ObsDict.desired_goal).getD default

/-- The future-observation index drawn for sampled slot `i` in
`random_batch`: `possible_future_obs_idxs[np.random.randint(0, num_options)]`
for randomness oracle `pick`. -/
def ObsDictRelabelingBuffer.futureObsIdx {A V : Type}
    (s : ObsDictRelabelingBuffer A V) (i pick : Nat) : Nat :=
  (s._idx_to_future_obs_idx i).getD
    (pick % (s._idx_to_future_obs_idx i).length) 0

/-- The `resampled_goals` array of the base class's `random_batch` after
its two guarded slice assignments: it starts as the stored
`_next_obs[desired_goal_key]` rows at the sampled indices; if
`num_env_goals > 0` positions `[num_rollout_goals, num_rollout_goals +
num_env_goals)` (clamped to the batch) are overwritten with environment
goals; if `num_future_goals > 0` the last `num_future_goals` positions are
overwritten with the achieved goals of `_next_obs` at indices drawn from
the sampled slots' future-observation-index lists. -/
def ObsDictRelabelingBuffer.resampledGoals {A V : Type} [Inhabited V]
    (s : ObsDictRelabelingBuffer A V) (batch_size : Nat)
    (indices : Nat → Nat) (envGoal : Nat → V) (pick : Nat → Nat)
    (j : Nat) : V :=
  let nr := (numRolloutGoals batch_size s.fraction_goals_rollout_goals).toNat
  let ne := (numEnvGoals batch_size s.fraction_goals_env_goals).toNat
  let nf := (numFutureGoals batch_size s.fraction_goals_rollout_goals
    s.fraction_goals_env_goals).toNat
  if 0 < nf ∧ batch_size - nf ≤ j ∧ j < batch_size then
    s.nextObsAchieved (s.futureObsIdx (indices j) (pick j))
  else if 0 < ne ∧ nr ≤ j ∧ j < nr + ne ∧ j < batch_size then
    envGoal (j - nr)
  else
    s.nextObsDesired (indices j)

/-- C4: with the constructor assertions satisfied, the three goal counts of
`random_batch` are nonnegative and sum to `batch_size`, and the resampled
goals are assigned by position: entries `[0, num_rollout_goals)` keep the
stored rollout desired goals, entries
`[num_rollout_goals, num_rollout_goals + num_env_goals)` get environment
goals, and the last `num_future_goals` entries get achieved goals taken
from `_next_obs` at indices drawn from the sampled slots'
future-observation-index lists. -/
theorem random_batch_goal_partition {A V : Type} [Inhabited V]
    (s : ObsDictRelabelingBuffer A V) (batch_size : Nat)
    (hbs : 1 ≤ batch_size)
    (h1 : 0 ≤ s.fraction_goals_rollout_goals)
    (h2 : 0 ≤ s.fraction_goals_env_goals)
    (h3 : s.fraction_goals_rollout_goals + s.fraction_goals_env_goals ≤ 1)
    (indices : Nat → Nat) (envGoal : Nat → V) (pick : Nat → Nat) :
    0 ≤ numRolloutGoals batch_size s.fraction_goals_rollout_goals ∧
    0 ≤ numEnvGoals batch_size s.fraction_goals_env_goals ∧
    0 ≤ numFutureGoals batch_size s.fraction_goals_rollout_goals
      s.fraction_goals_env_goals ∧
    numRolloutGoals batch_size s.fraction_goals_rollout_goals +
      numEnvGoals batch_size s.fraction_goals_env_goals +
      numFutureGoals batch_size s.fraction_goals_rollout_goals
        s.fraction_goals_env_goals = batch_size ∧
    (∀ j, j < batch_size →
      (j < (numRolloutGoals batch_size s.fraction_goals_rollout_goals).toNat →
        s.resampledGoals batch_size indices envGoal pick j =
          s.nextObsDesired (indices j)) ∧
      ((numRolloutGoals batch_size s.fraction_goals_rollout_goals).toNat ≤ j →
        j < (numRolloutGoals batch_size s.fraction_goals_rollout_goals).toNat +
          (numEnvGoals batch_size s.fraction_goals_env_goals).toNat →
        s.resampledGoals batch_size indices envGoal pick j =
          envGoal (j - (numRolloutGoals batch_size
            s.fraction_goals_rollout_goals).toNat)) ∧
      ((numRolloutGoals batch_size s.fraction_goals_rollout_goals).toNat +
          (numEnvGoals batch_size s.fraction_goals_env_goals).toNat ≤ j →
        s.resampledGoals batch_size indices envGoal pick j =
          s.nextObsAchieved (s.futureObsIdx (indices j) (pick j)))) := by
  have hq1 : (0 : ℚ) ≤ batch_size * s.fraction_goals_rollout_goals :=
    mul_nonneg (by positivity) h1
  have hq2 : (0 : ℚ) ≤ batch_size * s.fraction_goals_env_goals :=
    mul_nonneg (by positivity) h2
  have hnr : numRolloutGoals batch_size s.fraction_goals_rollout_goals =
      ⌊(batch_size : ℚ) * s.fraction_goals_rollout_goals⌋ := by
    unfold numRolloutGoals pyInt
    rw [if_pos hq1]
  have hne : numEnvGoals batch_size s.fraction_goals_env_goals =
      ⌊(batch_size : ℚ) * s.fraction_goals_env_goals⌋ := by
    unfold numEnvGoals pyInt
    rw [if_pos hq2]
  have hnr0 : 0 ≤ numRolloutGoals batch_size s.fraction_goals_rollout_goals := by
    rw [hnr]
    exact Int.floor_nonneg.mpr hq1
  have hne0 : 0 ≤ numEnvGoals batch_size s.fraction_goals_env_goals := by
    rw [hne]
    exact Int.floor_nonneg.mpr hq2
  have hsumle : numRolloutGoals batch_size s.fraction_goals_rollout_goals +
      numEnvGoals batch_size s.fraction_goals_env_goals ≤ batch_size := by
    rw [hnr, hne]
    have ha := Int.le_floor_add ((batch_size : ℚ) *
      s.fraction_goals_rollout_goals) ((batch_size : ℚ) *
      s.fraction_goals_env_goals)
    have hb : (batch_size : ℚ) * s.fraction_goals_rollout_goals +
        (batch_size : ℚ) * s.fraction_goals_env_goals ≤ (batch_size : ℚ) := by
      have := mul_le_mul_of_nonneg_left h3
        (show (0 : ℚ) ≤ batch_size by positivity)
      calc (batch_size : ℚ) * s.fraction_goals_rollout_goals +
          (batch_size : ℚ) * s.fraction_goals_env_goals
          = (batch_size : ℚ) * (s.fraction_goals_rollout_goals +
            s.fraction_goals_env_goals) := by ring
        _ ≤ (batch_size : ℚ) * 1 := this
        _ = (batch_size : ℚ) := by ring
    have hc := Int.floor_le_floor hb
    rw [show ⌊(batch_size : ℚ)⌋ = (batch_size : ℤ) from rfl] at hc
    omega
  have hnf0 : 0 ≤ numFutureGoals batch_size s.fraction_goals_rollout_goals
      s.fraction_goals_env_goals := by
    unfold numFutureGoals
    omega
  refine ⟨hnr0, hne0, hnf0, by unfold numFutureGoals; omega, ?_⟩
  intro j hj
  have htotal : (numRolloutGoals batch_size
        s.fraction_goals_rollout_goals).toNat +
      (numEnvGoals batch_size s.fraction_goals_env_goals).toNat +
      (numFutureGoals batch_size s.fraction_goals_rollout_goals
        s.fraction_goals_env_goals).toNat = batch_size := by
    unfold numFutureGoals at hnf0 ⊢
    omega
  refine ⟨?_, ?_, ?_⟩
  · intro hjr
    unfold ObsDictRelabelingBuffer.resampledGoals
    rw [if_neg (by omega), if_neg (by omega)]
  · intro hjr hje
    unfold ObsDictRelabelingBuffer.resampledGoals
    rw [if_neg (by omega), if_pos ⟨by omega, hjr, hje, hj⟩]
  · intro hjf
    unfold ObsDictRelabelingBuffer.resampledGoals
    rw [if_pos ⟨by omega, by omega, hj⟩]

/-- Witness for `random_batch_goal_partition`: batch size 4 with fractions
`1/2` and `1/4` gives counts 2, 1, 1; position 2 receives the environment
goal and position 3 a future achieved goal. -/
theorem random_batch_goal_partition_witness :
    (0 ≤ numRolloutGoals 4 (1/2) ∧
      numRolloutGoals 4 (1/2) + numEnvGoals 4 (1/4) +
        numFutureGoals 4 (1/2) (1/4) = 4) ∧
    (initBuffer ℚ ℚ 8 (1/2) (1/4)).resampledGoals 4 (fun _ => 0)
      (fun _ => 99) (fun _ => 0) 2 = 99 ∧
    (initBuffer ℚ ℚ 8 (1/2) (1/4)).resampledGoals 4 (fun _ => 0)
      (fun _ => 99) (fun _ => 0) 3 =
      (initBuffer ℚ ℚ 8 (1/2) (1/4)).nextObsAchieved
        ((initBuffer ℚ ℚ 8 (1/2) (1/4)).futureObsIdx 0 0) := by
  have h := random_batch_goal_partition (initBuffer ℚ ℚ 8 (1/2) (1/4)) 4
    (by norm_num)
    (by norm_num [initBuffer])
    (by norm_num [initBuffer])
    (by norm_num [initBuffer])
    (fun _ => 0) (fun _ => 99) (fun _ => 0)
  have hnrz : numRolloutGoals 4
      (initBuffer ℚ ℚ 8 (1/2) (1/4)).fraction_goals_rollout_goals = 2 := by
    norm_num [numRolloutGoals, pyInt, initBuffer]
  have hnez : numEnvGoals 4
      (initBuffer ℚ ℚ 8 (1/2) (1/4)).fraction_goals_env_goals = 1 := by
    norm_num [numEnvGoals, pyInt, initBuffer]
  have hnr : (numRolloutGoals 4
      (initBuffer ℚ ℚ 8 (1/2) (1/4)).fraction_goals_rollout_goals).toNat = 2 := by
    rw [hnrz]
    rfl
  have hne : (numEnvGoals 4
      (initBuffer ℚ ℚ 8 (1/2) (1/4)).fraction_goals_env_goals).toNat = 1 := by
    rw [hnez]
    rfl
  have h2 := (h.2.2.2.2 2 (by norm_num)).2.1 (by rw [hnr])
    (by rw [hnr, hne]; omega)
  have h3 := (h.2.2.2.2 3 (by norm_num)).2.2 (by rw [hnr, hne])
  exact ⟨⟨h.1, h.2.2.2.1⟩, h2, h3⟩

/-- The `rewards` entry of the base class's `random_batch` in the gym
`GoalEnv` branch (the environment modelled here has no batch
`compute_rewards`): `env.compute_reward(new_next_obs_dict[achieved][i],
new_next_obs_dict[desired][i], None)`, where the desired entry has been
replaced by the resampled goal and the achieved entry is the stored
`_next_obs` achieved goal at the sampled slot (the achieved-goal key is not
among the default `goal_keys`, and no default key is an image key, so
postprocessing changes nothing here).  The base class has no `_rewards`
array: the path's rewards are never consulted. -/
def ObsDictRelabelingBuffer.randomBatchRewards {A V : Type} [Inhabited V]
    (s : ObsDictRelabelingBuffer A V) (compute_reward : V → V → ℚ)
    (batch_size : Nat) (indices : Nat → Nat) (envGoal : Nat → V)
    (pick : Nat → Nat) (j : Nat) : ℚ :=
  compute_reward (s.nextObsAchieved (indices j))
    (s.resampledGoals batch_size indices envGoal pick j)

/-- C5 counterexample: the base `ObsDictRelabelingBuffer` does not return
stored path rewards from `random_batch`.  A concrete run: capacity-1 buffer,
one path whose single transition has reward 7, environment whose
`compute_reward` is constantly 0; the `rewards` entry of `random_batch` at
the sampled slot is 0, not the stored path reward 7. -/
theorem base_random_batch_reward_counterexample :
    ((((initBuffer ℚ ℚ 1 1 0).add_path
        [⟨⟨1, 2, 3⟩, 4, 7, ⟨5, 6, 8⟩, false⟩]).randomBatchRewards
      (fun _ _ => 0) 1 (fun _ => 0) (fun _ => 0) (fun _ => 0) 0) = 0) ∧
    (([⟨⟨1, 2, 3⟩, 4, 7, ⟨5, 6, 8⟩, (false : Bool)⟩] :
        List (PathStep ℚ ℚ)).getD 0 default).reward = 7 ∧
    (0 : ℚ) ≠ 7 := by
  refine ⟨rfl, rfl, by norm_num⟩

theorem newstate_samples_length (compute_reward : List ℚ → List ℚ → ℚ)
    (k : Nat) (r : Nat → Nat → Nat)
    (path : List (PathStep (List ℚ) (List ℚ))) (hL : 1 ≤ path.length) :
    (newstatePathSamples compute_reward k r path).length =
      path.length + k * (path.length - 1) := by
  obtain ⟨n, hn⟩ : ∃ n, path.length = n + 1 := ⟨path.length - 1, by omega⟩
  rw [newstatePathSamples_split compute_reward k r path n hn,
    List.length_append,
    bind_const_length_length _ (k + 1) (by intro i; simp) n, hn]
  have h1 : n * (k + 1) = n * k + n := by ring
  have h2 : k * (n + 1 - 1) = n * k := by
    rw [Nat.add_sub_cancel]
    ring
  simp only [List.length_singleton]
  omega

theorem newstate_samples_get_orig (compute_reward : List ℚ → List ℚ → ℚ)
    (k : Nat) (r : Nat → Nat → Nat)
    (path : List (PathStep (List ℚ) (List ℚ))) (i : Nat)
    (hi : i < path.length) :
    (newstatePathSamples compute_reward k r path).get? (i * (k + 1)) =
      some (origSample path i) := by
  obtain ⟨n, hn⟩ : ∃ n, path.length = n + 1 := ⟨path.length - 1, by omega⟩
  have hflen : ∀ x, (origSample path x :: (List.range k).map (fun j =>
      relabelSample compute_reward path x
        (newstateSelIdx r path.length x j))).length = k + 1 := by
    intro x
    simp
  have hblen := bind_const_length_length (fun x =>
    origSample path x :: (List.range k).map (fun j =>
      relabelSample compute_reward path x
        (newstateSelIdx r path.length x j))) (k + 1) hflen n
  rw [newstatePathSamples_split compute_reward k r path n hn]
  rcases Nat.lt_or_ge i n with hin | hin
  · rw [List.get?_append (by
      rw [hblen]
      exact mul_lt_mul_of_pos_right hin (by omega))]
    exact bind_const_length_get _ (k + 1) hflen n i 0 hin (by omega)
  · have hieq : i = n := by omega
    subst hieq
    rw [List.get?_append_right (by rw [hblen])]
    simp [hblen]

/-- C5 (amended): the reward-array storage holds for the img and newstate
classes only.  `imgObsDictRelabelingBuffer.add_sample` writes the given
reward into the per-slot `_rewards` array at `_top` (even when the
observation store raises), and its `random_batch` returns
`_rewards[indices]`; `newstateObsDictRelabelingBuffer.add_path` on a fresh
buffer stores each inserted sample's reward per slot — in particular slot
`i * (k + 1)` holds step `i`'s path reward — and its `random_batch` returns
`_rewards[indices]`.  The base `ObsDictRelabelingBuffer` has no rewards
array: its `random_batch` recomputes every reward with
`env.compute_reward` on the sampled achieved goal and the resampled goal. -/
theorem rewards_storage_spec :
    (∀ (s : ImgBuf) (smp : Sample),
      (s.insertAttempt smp)._rewards s._top = some smp.reward) ∧
    (∀ (s : ImgBuf) (rs : Nat → Nat) (j : Nat),
      s.random_batch_rewards rs j = s._rewards (s.sampleIndex (rs j))) ∧
    (∀ (M k : Nat) (cR : List ℚ → List ℚ → ℚ) (r : Nat → Nat → Nat)
      (path : List (PathStep (List ℚ) (List ℚ))),
      0 < M → 1 ≤ path.length →
      path.length + k * (path.length - 1) ≤ M →
      ∀ i, i < path.length →
        ((newstateInit M k).add_path cR r path)._rewards (i * (k + 1)) =
          some ((path.getD i default).reward)) ∧
    (∀ (s : NewstateBuf) (rs : Nat → Nat) (j : Nat),
      s.random_batch_rewards rs j = s._rewards (s.sampleIndex (rs j))) ∧
    (∀ (A V : Type) (_ : Inhabited V) (s : ObsDictRelabelingBuffer A V)
      (cR : V → V → ℚ) (bs : Nat) (ind : Nat → Nat) (env : Nat → V)
      (pick : Nat → Nat) (j : Nat),
      s.randomBatchRewards cR bs ind env pick j =
        cR (s.nextObsAchieved (ind j))
          (s.resampledGoals bs ind env pick j)) := by
  refine ⟨?_, fun _ _ _ => rfl, ?_, fun _ _ _ => rfl, fun _ _ _ _ _ _ _ _ _ _ => rfl⟩
  · intro s smp
    by_cases h1 : smp.obs.length = s.obs_dim
    · by_cases h2 : smp.next_obs.length = s.obs_dim
      · show ((s.add_sample smp.obs smp.action smp.reward smp.terminal
          smp.next_obs).1)._rewards s._top = some smp.reward
        simp [ImgBuf.add_sample, storeRow, h1, h2, ImgBuf._advance, setIdx]
      · show ((s.add_sample smp.obs smp.action smp.reward smp.terminal
          smp.next_obs).1)._rewards s._top = some smp.reward
        simp [ImgBuf.add_sample, storeRow, h1, h2, setIdx]
    · show ((s.add_sample smp.obs smp.action smp.reward smp.terminal
        smp.next_obs).1)._rewards s._top = some smp.reward
      simp [ImgBuf.add_sample, storeRow, h1, setIdx]
  · intro M k cR r path hM hL hlen i hi
    have hslen := newstate_samples_length cR k r path hL
    have hik : i * (k + 1) < path.length + k * (path.length - 1) := by
      have h1 : i * (k + 1) ≤ (path.length - 1) * (k + 1) :=
        Nat.mul_le_mul_right _ (by omega)
      have h2 : (path.length - 1) * (k + 1) =
          (path.length - 1) + k * (path.length - 1) := by ring
      omega
    have hm : i * (k + 1) < (newstatePathSamples cR k r path).length := by
      omega
    have hfold := newstate_fold_rewards_in (newstatePathSamples cR k r path)
      (newstateInit M k) (show (0 : Nat) < M from hM)
      (by rw [hslen]; exact hlen) (i * (k + 1)) hm
    have hidx : ((newstateInit M k)._top + i * (k + 1)) %
        (newstateInit M k).max_size = i * (k + 1) := by
      show (0 + i * (k + 1)) % M = i * (k + 1)
      rw [Nat.zero_add, Nat.mod_eq_of_lt (by omega)]
    rw [hidx] at hfold
    show ((newstatePathSamples cR k r path).foldl NewstateBuf.insert
      (newstateInit M k))._rewards (i * (k + 1)) = _
    rw [hfold]
    have hg : (newstatePathSamples cR k r path).getD (i * (k + 1)) default =
        origSample path i := by
      show ((newstatePathSamples cR k r path).get? (i * (k + 1))).getD default =
        origSample path i
      rw [newstate_samples_get_orig cR k r path i hi]
      rfl
    rw [hg]
    rfl

/-- Witness for `rewards_storage_spec`: concrete stores and reads of the
reward 3 (img) and the path rewards 5, 6 (newstate). -/
theorem rewards_storage_spec_witness :
    ((imgInit 2 1).insertAttempt ⟨[1], [2], 3, false, [4]⟩)._rewards 0 =
      some 3 ∧
    ((newstateInit 5 1).add_path (fun _ _ => 0) (fun _ _ => 0)
      [⟨⟨[1], [2], [3]⟩, [0], 5, ⟨[4], [5], [6]⟩, false⟩,
       ⟨⟨[7], [8], [9]⟩, [1], 6, ⟨[10], [11], [12]⟩, true⟩])._rewards 0 =
      some 5 := by
  have h := rewards_storage_spec
  refine ⟨h.1 (imgInit 2 1) ⟨[1], [2], 3, false, [4]⟩, ?_⟩
  have h3 := h.2.2.1 5 1 (fun _ _ => 0) (fun _ _ => 0)
    [⟨⟨[1], [2], [3]⟩, [0], 5, ⟨[4], [5], [6]⟩, false⟩,
     ⟨⟨[7], [8], [9]⟩, [1], 6, ⟨[10], [11], [12]⟩, true⟩]
    (by decide) (by decide) (by decide) 0 (by decide)
  exact h3

/-- The observable actions of one pass through the body of the
`run_evaluation` loop of `ISE_7202/eval.py` at iteration `i`: a call to
`env.reset` when `i % episode_length == 0`, then computing the action, the
blocking `input("press enter to take action...")` confirmation, the
`env.step(action)`, and the `env.render()`. -/
inductive EvalEvent where
  | reset
  | getAction
  | prompt
  | step
  | render
  deriving DecidableEq

/-- `training_steps = 150` in `run_evaluation`. -/
def training_steps : Nat := 150

/-- `episode_length = 50` in `run_evaluation`. -/
def episode_length : Nat := 50

/-- The body of iteration `i` of the `run_evaluation` loop. -/
def evalIter (i : Nat) : List EvalEvent :=
  (if i % episode_length = 0 then [EvalEvent.reset] else []) ++
    [EvalEvent.getAction, EvalEvent.prompt, EvalEvent.step, EvalEvent.render]

/-- The full trace of `run_evaluation`: one iteration body per element of
`range(training_steps)`. -/
def runEvaluationTrace : List (List EvalEvent) :=
  (List.range training_steps).map evalIter

/-- C10: `run_evaluation` executes exactly 150 iterations; it resets the
environment exactly at the iterations whose index is a multiple of the
episode length 50, i.e. at iterations 0, 50 and 100; and in every iteration
there is exactly one confirmation prompt and exactly one `env.step`, with
the prompt strictly before the step — so `env.step` is never called without
first receiving user input in that iteration, and each step consumes
exactly one confirmation. -/
theorem run_evaluation_confirmation_spec :
    runEvaluationTrace.length = 150 ∧
    (∀ i, i < 150 → runEvaluationTrace.get? i = some (evalIter i)) ∧
    (∀ i, i < 150 →
      ((EvalEvent.reset ∈ evalIter i) ↔ i % 50 = 0) ∧
      (evalIter i).count EvalEvent.prompt = 1 ∧
      (evalIter i).count EvalEvent.step = 1 ∧
      (evalIter i).indexOf EvalEvent.prompt <
        (evalIter i).indexOf EvalEvent.step) ∧
    (∀ i, i < 150 → (i % 50 = 0 ↔ (i = 0 ∨ i = 50 ∨ i = 100))) := by
  refine ⟨by simp [runEvaluationTrace, training_steps], ?_, ?_, ?_⟩
  · intro i hi
    unfold runEvaluationTrace training_steps
    rw [List.get?_map, List.get?_range hi]
    rfl
  · intro i hi
    unfold evalIter episode_length
    by_cases h : i % 50 = 0
    · rw [if_pos h]
      refine ⟨by simp [h], by decide, by decide, by decide⟩
    · rw [if_neg h]
      refine ⟨by simp [h], by decide, by decide, by decide⟩
  · intro i hi
    omega

/-- Witness for `run_evaluation_confirmation_spec`: iteration 50 resets and
prompts once before its single step; iteration 3 does not reset. -/
theorem run_evaluation_confirmation_spec_witness :
    (EvalEvent.reset ∈ evalIter 50) ∧
    ¬ (EvalEvent.reset ∈ evalIter 3) ∧
    (evalIter 50).count EvalEvent.prompt = 1 ∧
    (evalIter 50).indexOf EvalEvent.prompt <
      (evalIter 50).indexOf EvalEvent.step ∧
    runEvaluationTrace.length = 150 := by
  have h := run_evaluation_confirmation_spec
  have h50 := h.2.2.1 50 (by decide)
  have h3 := h.2.2.1 3 (by decide)
  exact ⟨h50.1.mpr (by decide), fun hc => by have := h3.1.mp hc; omega,
    h50.2.1, h50.2.2.2, h.1⟩

/-- Total number of transitions written by a history of `add_path` calls. -/
def histTotal {A V : Type} (paths : List (List (PathStep A V))) : Nat :=
  (paths.map List.length).sum

/-- The largest absolute write position `< T` whose slot (residue modulo
`M`) is `j`; meaningful when `j < M` and `j < T`. -/
def lastPos (M T j : Nat) : Nat :=
  j + M * ((T - 1 - j) / M)

/-- The index (in the history) of the path containing absolute position
`a`. -/
def posWriter {A V : Type} (paths : List (List (PathStep A V))) (a : Nat) :
    Nat :=
  match paths with
  | [] => 0
  | p :: t => if a < p.length then 0 else 1 + posWriter t (a - p.length)

/-- The end (exclusive, in absolute positions) of the path containing
absolute position `a`. -/
def pathEndAt {A V : Type} (paths : List (List (PathStep A V))) (a : Nat) :
    Nat :=
  match paths with
  | [] => 0
  | p :: t =>
      if a < p.length then p.length else p.length + pathEndAt t (a - p.length)

theorem histTotal_cons {A V : Type} (p : List (PathStep A V))
    (t : List (List (PathStep A V))) :
    histTotal (p :: t) = p.length + histTotal t := by
  simp [histTotal]

theorem histTotal_append_one {A V : Type}
    (h : List (List (PathStep A V))) (p : List (PathStep A V)) :
    histTotal (h ++ [p]) = histTotal h + p.length := by
  simp [histTotal]

theorem lastPos_spec (M T j : Nat) (hM : 0 < M) (hj : j < M) (hjT : j < T) :
    lastPos M T j % M = j ∧ lastPos M T j < T ∧ T ≤ lastPos M T j + M := by
  unfold lastPos
  have h1 := Nat.div_add_mod (T - 1 - j) M
  have h2 := Nat.mod_lt (T - 1 - j) hM
  refine ⟨?_, by omega, by omega⟩
  rw [Nat.add_mul_mod_self_left, Nat.mod_eq_of_lt hj]

theorem lastPos_eq_of (M T j a : Nat) (hM : 0 < M) (hj : j < M) (hjT : j < T)
    (ha1 : a % M = j) (ha2 : a < T) (ha3 : T ≤ a + M) : lastPos M T j = a := by
  obtain ⟨h1, h2, h3⟩ := lastPos_spec M T j hM hj hjT
  have hb := Nat.div_add_mod (lastPos M T j) M
  have ha := Nat.div_add_mod a M
  rw [h1] at hb
  rw [ha1] at ha
  have hq1 : lastPos M T j / M < a / M + 1 := by
    refine Nat.lt_of_mul_lt_mul_left
      (?_ : M * (lastPos M T j / M) < M * (a / M + 1))
    have he : M * (a / M + 1) = M * (a / M) + M := by ring
    omega
  have hq2 : a / M < lastPos M T j / M + 1 := by
    refine Nat.lt_of_mul_lt_mul_left
      (?_ : M * (a / M) < M * (lastPos M T j / M + 1))
    have he : M * (lastPos M T j / M + 1) = M * (lastPos M T j / M) + M := by
      ring
    omega
  have hq : lastPos M T j / M = a / M := by omega
  rw [hq] at hb
  omega

theorem pathEnd_spec {A V : Type} (paths : List (List (PathStep A V))) :
    ∀ a, a < histTotal paths →
      a < pathEndAt paths a ∧ pathEndAt paths a ≤ histTotal paths := by
  induction paths with
  | nil => intro a ha; simp [histTotal] at ha
  | cons p t ih =>
      intro a ha
      rw [histTotal_cons] at ha
      unfold pathEndAt
      split
      case isTrue h => rw [histTotal_cons]; omega
      case isFalse h =>
        have := ih (a - p.length) (by omega)
        rw [histTotal_cons]
        omega

theorem posWriter_eq_of_same_span {A V : Type}
    (paths : List (List (PathStep A V))) :
    ∀ a b, a < histTotal paths → a ≤ b → b < pathEndAt paths a →
      posWriter paths b = posWriter paths a ∧
      pathEndAt paths b = pathEndAt paths a := by
  induction paths with
  | nil => intro a b ha; simp [histTotal] at ha
  | cons p t ih =>
      intro a b ha hab hb
      rw [histTotal_cons] at ha
      by_cases h : a < p.length
      · rw [show pathEndAt (p :: t) a = p.length by unfold pathEndAt; rw [if_pos h]] at hb
        unfold posWriter pathEndAt
        rw [if_pos h, if_pos hb, if_pos h, if_pos hb]
        exact ⟨rfl, rfl⟩
      · have hb' : ¬ b < p.length := by omega
        rw [show pathEndAt (p :: t) a =
          p.length + pathEndAt t (a - p.length) by
            conv_lhs => unfold pathEndAt
            rw [if_neg h]] at hb
        have := ih (a - p.length) (b - p.length) (by omega) (by omega)
          (by omega)
        have e1 : posWriter (p :: t) b = 1 + posWriter t (b - p.length) := by
          conv_lhs => unfold posWriter
          rw [if_neg hb']
        have e2 : posWriter (p :: t) a = 1 + posWriter t (a - p.length) := by
          conv_lhs => unfold posWriter
          rw [if_neg h]
        have e3 : pathEndAt (p :: t) b =
            p.length + pathEndAt t (b - p.length) := by
          conv_lhs => unfold pathEndAt
          rw [if_neg hb']
        have e4 : pathEndAt (p :: t) a =
            p.length + pathEndAt t (a - p.length) := by
          conv_lhs => unfold pathEndAt
          rw [if_neg h]
        rw [e1, e2, e3, e4]
        omega

theorem posWriter_append_old {A V : Type}
    (paths : List (List (PathStep A V))) (p : List (PathStep A V)) :
    ∀ a, a < histTotal paths →
      posWriter (paths ++ [p]) a = posWriter paths a ∧
      pathEndAt (paths ++ [p]) a = pathEndAt paths a := by
  induction paths with
  | nil => intro a ha; simp [histTotal] at ha
  | cons q t ih =>
      intro a ha
      rw [histTotal_cons] at ha
      by_cases h : a < q.length
      · rw [List.cons_append]
        unfold posWriter pathEndAt
        rw [if_pos h, if_pos h, if_pos h, if_pos h]
        exact ⟨rfl, rfl⟩
      · have := ih (a - q.length) (by omega)
        rw [List.cons_append]
        unfold posWriter pathEndAt
        rw [if_neg h, if_neg h, if_neg h, if_neg h]
        omega

theorem posWriter_append_new {A V : Type}
    (paths : List (List (PathStep A V))) (p : List (PathStep A V)) :
    ∀ a, histTotal paths ≤ a → a < histTotal paths + p.length →
      posWriter (paths ++ [p]) a = paths.length ∧
      pathEndAt (paths ++ [p]) a = histTotal paths + p.length := by
  induction paths with
  | nil =>
      intro a ha1 ha2
      simp [histTotal] at ha1 ha2 ⊢
      unfold posWriter pathEndAt
      rw [if_pos (by omega), if_pos (by omega)]
      exact ⟨rfl, rfl⟩
  | cons q t ih =>
      intro a ha1 ha2
      rw [histTotal_cons] at ha1 ha2
      have h : ¬ a < q.length := by omega
      have := ih (a - q.length) (by omega) (by omega)
      rw [List.cons_append]
      unfold posWriter pathEndAt
      rw [if_neg h, if_neg h]
      constructor
      · simp only [List.length_cons]
        omega
      · rw [histTotal_cons]
        omega

theorem foldl_add_path_max {A V : Type} (paths : List (List (PathStep A V))) :
    ∀ s : ObsDictRelabelingBuffer A V,
      (paths.foldl ObsDictRelabelingBuffer.add_path s).max_size = s.max_size := by
  induction paths with
  | nil => intro s; rfl
  | cons p t ih =>
      intro s
      rw [List.foldl_cons]
      exact ih (s.add_path p)

/-- The future-observation-index list the state characterisation assigns to
slot `j` after a history: the residues modulo `max_size` of the absolute
positions from the last write of slot `j` to the end of that write's
path. -/
def futOf {A V : Type} (M : Nat) (paths : List (List (PathStep A V)))
    (j : Nat) : List Nat :=
  (List.range (pathEndAt paths (lastPos M (histTotal paths) j) -
    lastPos M (histTotal paths) j)).map
    (fun d => (lastPos M (histTotal paths) j + d) % M)

theorem runBase_fut_spec {A V : Type} (M : Nat) (hM : 0 < M)
    (paths : List (List (PathStep A V)))
    (hl : ∀ p ∈ paths, 1 ≤ p.length ∧ p.length ≤ M) :
    (runBase A V M paths)._top = histTotal paths % M ∧
    (runBase A V M paths)._size = min (histTotal paths) M ∧
    ∀ j, j < min (histTotal paths) M →
      (runBase A V M paths)._idx_to_future_obs_idx j = futOf M paths j := by
  induction paths using List.reverseRecOn with
  | nil =>
      refine ⟨by simp [runBase, initBuffer, histTotal], by
        simp [runBase, initBuffer, histTotal], ?_⟩
      intro j hj
      simp [histTotal] at hj
  | append_singleton h p ih =>
      have hlh : ∀ q ∈ h, 1 ≤ q.length ∧ q.length ≤ M := by
        intro q hq
        exact hl q (by simp [hq])
      have hp := hl p (by simp)
      obtain ⟨ihtop, ihsize, ihfut⟩ := ih hlh
      have hrun : runBase A V M (h ++ [p]) = (runBase A V M h).add_path p := by
        unfold runBase
        rw [List.foldl_append]
        rfl
      have hmax : (runBase A V M h).max_size = M :=
        foldl_add_path_max h (initBuffer A V M 1 0)
      have hT' := histTotal_append_one h p
      have htop' : (runBase A V M (h ++ [p]))._top =
          histTotal (h ++ [p]) % M := by
        rw [hrun, hT']
        show ((runBase A V M h)._top + p.length) % (runBase A V M h).max_size = _
        rw [ihtop, hmax, Nat.mod_add_mod]
      have hsize' : (runBase A V M (h ++ [p]))._size =
          min (histTotal (h ++ [p])) M := by
        rw [hrun, hT']
        show min ((runBase A V M h)._size + p.length)
          (runBase A V M h).max_size = _
        rw [ihsize, hmax]
        omega
      refine ⟨htop', hsize', ?_⟩
      intro j hj
      have hjM : j < M := by omega
      rw [hT'] at hj
      have hproj : (runBase A V M (h ++ [p]))._idx_to_future_obs_idx =
          writeFut (runBase A V M h)._idx_to_future_obs_idx
            (runBase A V M h)._top (runBase A V M h).max_size p.length := by
        rw [hrun]
        rfl
      rw [hproj, ihtop, hmax]
      by_cases hreg : ∃ x, x < p.length ∧ (histTotal h + x) % M = j
      · obtain ⟨x, hx, hxj⟩ := hreg
        have hTx : (histTotal h % M + x) % M = j := by
          rw [Nat.mod_add_mod]
          exact hxj
        have hw := writeFut_in (runBase A V M h)._idx_to_future_obs_idx
          (histTotal h % M) M p.length x (Nat.mod_lt _ hM) hp.2 hx
        rw [hTx] at hw
        rw [hw]
        have hjT' : j < histTotal h + p.length := by omega
        have hlp : lastPos M (histTotal h + p.length) j = histTotal h + x :=
          lastPos_eq_of M (histTotal h + p.length) j (histTotal h + x) hM hjM
            hjT' hxj (by omega) (by omega)
        unfold futOf
        rw [hT', hlp,
          (posWriter_append_new h p (histTotal h + x) (by omega) (by omega)).2]
        have hrange : histTotal h + p.length - (histTotal h + x) =
            p.length - x := by omega
        rw [hrange]
        apply List.map_eq_map_iff.mpr
        intro d hd
        have he : histTotal h % M + x + d = histTotal h % M + (x + d) := by
          omega
        rw [he, Nat.mod_add_mod]
        congr 1
        omega
      · have hjold : j < min (histTotal h) M := by
          rcases Nat.lt_or_ge (histTotal h) M with hTM | hTM
          · rcases Nat.lt_or_ge j (histTotal h) with h' | h'
            · omega
            · exfalso
              refine hreg ⟨j - histTotal h, by omega, ?_⟩
              rw [show histTotal h + (j - histTotal h) = j by omega,
                Nat.mod_eq_of_lt hjM]
          · omega
        have hwout := writeFut_out (runBase A V M h)._idx_to_future_obs_idx
          (histTotal h % M) M p.length j (Nat.mod_lt _ hM) hp.2 (by
            intro x hx
            rw [Nat.mod_add_mod]
            exact fun hc => hreg ⟨x, hx, hc⟩)
        rw [hwout, ihfut j hjold]
        have hjT : j < histTotal h := by omega
        obtain ⟨hm1, hm2, hm3⟩ := lastPos_spec M (histTotal h) j hM hjM hjT
        have hTL : histTotal h + p.length ≤ lastPos M (histTotal h) j + M := by
          by_contra hc
          push_neg at hc
          refine hreg ⟨lastPos M (histTotal h) j + M - histTotal h,
            by omega, ?_⟩
          rw [show histTotal h + (lastPos M (histTotal h) j + M -
            histTotal h) = lastPos M (histTotal h) j + M by omega,
            Nat.add_mod_right, hm1]
        have hlp : lastPos M (histTotal h + p.length) j =
            lastPos M (histTotal h) j :=
          lastPos_eq_of M (histTotal h + p.length) j
            (lastPos M (histTotal h) j) hM hjM (by omega) hm1 (by omega) hTL
        unfold futOf
        rw [hT', hlp, (posWriter_append_old h p (lastPos M (histTotal h) j)
          hm2).2]

/-- C9: FIFO validity of the future-observation pointers of the base
buffer.  For every reachable state (any sequence of `add_path` calls with
path lengths in `[1, max_size]` from the fresh state) and every valid slot
`i < _size`, every index `j` in `_idx_to_future_obs_idx[i]` is in bounds
for the relabeling lookup of `random_batch` (`j < _size`, and
`_next_obs[j]` holds written data) and refers to a slot of the same path as
`i` that has not been overwritten by a later path: the last write of `j` is
a position of the very path that last wrote `i` (same `posWriter`, same
path end), at or after `i`'s own last write — the first-in-first-out
overwrite order never lets a surviving slot's future list point at data
from a different episode. -/
theorem future_idx_fifo_spec {A V : Type} (M : Nat) (hM : 0 < M)
    (paths : List (List (PathStep A V)))
    (hl : ∀ p ∈ paths, 1 ≤ p.length ∧ p.length ≤ M) :
    ∀ i, i < (runBase A V M paths)._size →
      ∀ j, j ∈ (runBase A V M paths)._idx_to_future_obs_idx i →
        j < (runBase A V M paths)._size ∧
        ((runBase A V M paths)._next_obs j).isSome ∧
        lastPos M (histTotal paths) i ≤ lastPos M (histTotal paths) j ∧
        posWriter paths (lastPos M (histTotal paths) j) =
          posWriter paths (lastPos M (histTotal paths) i) ∧
        pathEndAt paths (lastPos M (histTotal paths) j) =
          pathEndAt paths (lastPos M (histTotal paths) i) := by
  obtain ⟨htop, hsize, hfut⟩ := runBase_fut_spec M hM paths hl
  intro i hi j hj
  rw [hsize] at hi
  rw [hfut i hi] at hj
  unfold futOf at hj
  rw [List.mem_map] at hj
  obtain ⟨d, hd, hjd⟩ := hj
  rw [List.mem_range] at hd
  have hiM : i < M := by omega
  have hiT : i < histTotal paths := by omega
  obtain ⟨ha1, ha2, ha3⟩ := lastPos_spec M (histTotal paths) i hM hiM hiT
  have hend := pathEnd_spec paths (lastPos M (histTotal paths) i) ha2
  have hadT : lastPos M (histTotal paths) i + d < histTotal paths := by omega
  have hjM : j < M := by
    rw [← hjd]
    exact Nat.mod_lt _ hM
  have hjle : j ≤ lastPos M (histTotal paths) i + d := by
    rw [← hjd]
    exact Nat.mod_le _ _
  have hjT : j < histTotal paths := by omega
  have hlpj : lastPos M (histTotal paths) j =
      lastPos M (histTotal paths) i + d :=
    lastPos_eq_of M (histTotal paths) j (lastPos M (histTotal paths) i + d)
      hM hjM hjT hjd hadT (by omega)
  have hjsize : j < (runBase A V M paths)._size := by
    rw [hsize]
    omega
  have hinv := base_fold_inv paths (initBuffer A V M 1 0)
    (initBuffer_inv A V M hM 1 0) hl
  have hws := hinv.1.2.2.2.2 j hjsize
  have hspan := posWriter_eq_of_same_span paths
    (lastPos M (histTotal paths) i) (lastPos M (histTotal paths) i + d)
    ha2 (by omega) (by omega)
  exact ⟨hjsize, hws.2.2.2, by rw [hlpj]; omega, by rw [hlpj]; exact hspan.1,
    by rw [hlpj]; exact hspan.2⟩

/-- Witness for `future_idx_fifo_spec`: capacity 3, two paths of length 2
(the second wraps and overwrites slot 0); for the surviving pre-wrap slot 2
the future index 0 points into the same (second) path, unoverwritten. -/
theorem future_idx_fifo_spec_witness :
    0 < (runBase ℚ ℚ 3 [[⟨⟨1, 1, 1⟩, 1, 1, ⟨1, 1, 1⟩, false⟩,
        ⟨⟨2, 2, 2⟩, 2, 2, ⟨2, 2, 2⟩, false⟩],
       [⟨⟨3, 3, 3⟩, 3, 3, ⟨3, 3, 3⟩, false⟩,
        ⟨⟨4, 4, 4⟩, 4, 4, ⟨4, 4, 4⟩, true⟩]])._size ∧
    ((runBase ℚ ℚ 3 [[⟨⟨1, 1, 1⟩, 1, 1, ⟨1, 1, 1⟩, false⟩,
        ⟨⟨2, 2, 2⟩, 2, 2, ⟨2, 2, 2⟩, false⟩],
       [⟨⟨3, 3, 3⟩, 3, 3, ⟨3, 3, 3⟩, false⟩,
        ⟨⟨4, 4, 4⟩, 4, 4, ⟨4, 4, 4⟩, true⟩]])._next_obs 0).isSome ∧
    posWriter [[(⟨⟨1, 1, 1⟩, 1, 1, ⟨1, 1, 1⟩, false⟩ : PathStep ℚ ℚ),
        ⟨⟨2, 2, 2⟩, 2, 2, ⟨2, 2, 2⟩, false⟩],
       [⟨⟨3, 3, 3⟩, 3, 3, ⟨3, 3, 3⟩, false⟩,
        ⟨⟨4, 4, 4⟩, 4, 4, ⟨4, 4, 4⟩, true⟩]]
      (lastPos 3 (histTotal [[(⟨⟨1, 1, 1⟩, 1, 1, ⟨1, 1, 1⟩, false⟩ :
          PathStep ℚ ℚ),
        ⟨⟨2, 2, 2⟩, 2, 2, ⟨2, 2, 2⟩, false⟩],
       [⟨⟨3, 3, 3⟩, 3, 3, ⟨3, 3, 3⟩, false⟩,
        ⟨⟨4, 4, 4⟩, 4, 4, ⟨4, 4, 4⟩, true⟩]]) 0) =
    posWriter [[(⟨⟨1, 1, 1⟩, 1, 1, ⟨1, 1, 1⟩, false⟩ : PathStep ℚ ℚ),
        ⟨⟨2, 2, 2⟩, 2, 2, ⟨2, 2, 2⟩, false⟩],
       [⟨⟨3, 3, 3⟩, 3, 3, ⟨3, 3, 3⟩, false⟩,
        ⟨⟨4, 4, 4⟩, 4, 4, ⟨4, 4, 4⟩, true⟩]]
      (lastPos 3 (histTotal [[(⟨⟨1, 1, 1⟩, 1, 1, ⟨1, 1, 1⟩, false⟩ :
          PathStep ℚ ℚ),
        ⟨⟨2, 2, 2⟩, 2, 2, ⟨2, 2, 2⟩, false⟩],
       [⟨⟨3, 3, 3⟩, 3, 3, ⟨3, 3, 3⟩, false⟩,
        ⟨⟨4, 4, 4⟩, 4, 4, ⟨4, 4, 4⟩, true⟩]]) 2) := by
  have h := future_idx_fifo_spec 3 (by decide)
    [[(⟨⟨1, 1, 1⟩, 1, 1, ⟨1, 1, 1⟩, false⟩ : PathStep ℚ ℚ),
      ⟨⟨2, 2, 2⟩, 2, 2, ⟨2, 2, 2⟩, false⟩],
     [⟨⟨3, 3, 3⟩, 3, 3, ⟨3, 3, 3⟩, false⟩,
      ⟨⟨4, 4, 4⟩, 4, 4, ⟨4, 4, 4⟩, true⟩]]
    (by
      intro p hp
      simp only [List.mem_cons, List.not_mem_nil, or_false] at hp
      rcases hp with rfl | rfl
      · exact ⟨by decide, by decide⟩
      · exact ⟨by decide, by decide⟩)
  have hres := h 2 (by decide) 0 (by decide)
  exact ⟨hres.1, hres.2.1, hres.2.2.2.1⟩
